import Mathlib

set_option maxRecDepth 16000

/-!
Verification of the dissect.ntfs NTFS parser against its natural-language
specification.  Python source functions are shallowly embedded as Lean
definitions: byte strings become `List Nat` (each element `< 256`), Python
ints become `Int`/`Nat`, mutable buffers become an explicit `Buf` state,
and fallible code returns `Option`/`Except`.
-/

namespace NTFS

/-- Little-endian unsigned interpretation of a byte list
(`int.from_bytes(buf, "little")`). -/
def leUnsigned : List Nat → Nat
  | [] => 0
  | b :: rest => b + 256 * leUnsigned rest

/-- `c_ntfs.varint`: pad to 8 bytes with `0xff` when the top bit of the last
byte is set (else `0x00`), then `struct.unpack("<q", buf)`.  Python raises
`IndexError` on an empty input (`buf[-1]`) and `struct.error` when more than
8 bytes are given; both failures are modelled as `none`. -/
def varint (buf : List Nat) : Option Int :=
  if buf.length = 0 ∨ 8 < buf.length then none
  else
    let padByte := if buf.getLastD 0 &&& 0x80 ≠ 0 then 0xff else 0x00
    let full := buf ++ List.replicate (8 - buf.length) padByte
    let u := leUnsigned full
    some (if u < 2 ^ 63 then (u : Int) else (u : Int) - 2 ^ 64)

/-- Specification-level meaning of a byte list as a signed little-endian
integer, sign-extended from the top bit of the most significant byte. -/
def signedLE (buf : List Nat) : Int :=
  let u := leUnsigned buf
  if u < 2 ^ (8 * buf.length - 1) then (u : Int) else (u : Int) - 2 ^ (8 * buf.length)

theorem leUnsigned_append (a b : List Nat) :
    leUnsigned (a ++ b) = leUnsigned a + 256 ^ a.length * leUnsigned b := by
  induction a with
  | nil => simp [leUnsigned]
  | cons x xs ih =>
    simp only [List.cons_append, leUnsigned, List.append_eq, ih, List.length_cons]
    ring

theorem leUnsigned_replicate_ff (m : Nat) :
    leUnsigned (List.replicate m 0xff) = 256 ^ m - 1 := by
  induction m with
  | zero => simp [leUnsigned]
  | succ n ih =>
    simp only [List.replicate_succ, leUnsigned, ih, pow_succ]
    have : 1 ≤ 256 ^ n := Nat.one_le_pow _ _ (by norm_num)
    omega

theorem leUnsigned_replicate_zero (m : Nat) :
    leUnsigned (List.replicate m 0) = 0 := by
  induction m with
  | zero => simp [leUnsigned]
  | succ n ih => simp only [List.replicate_succ, leUnsigned, ih]

theorem leUnsigned_lt (buf : List Nat) (hb : ∀ b ∈ buf, b < 256) :
    leUnsigned buf < 256 ^ buf.length := by
  induction buf with
  | nil => simp [leUnsigned]
  | cons x xs ih =>
    have hx : x < 256 := hb x (by simp)
    have hxs := ih (fun b hbmem => hb b (by simp [hbmem]))
    simp only [leUnsigned, List.length_cons, pow_succ]
    omega

theorem leUnsigned_concat (a : List Nat) (x : Nat) :
    leUnsigned (a ++ [x]) = leUnsigned a + 256 ^ a.length * x := by
  rw [leUnsigned_append]; simp [leUnsigned]

theorem pow_half_byte (L : Nat) : (2:Nat) ^ (8 * (L + 1) - 1) = 256 ^ L * 128 := by
  have h : 8 * (L + 1) - 1 = 8 * L + 7 := by omega
  rw [h, pow_add, show (256 : Nat) = 2 ^ 8 by norm_num, ← pow_mul]
  norm_num

theorem topBit_le_leUnsigned (init : List Nat) (last : Nat) (hlast : 128 ≤ last) :
    2 ^ (8 * (init.length + 1) - 1) ≤ leUnsigned (init ++ [last]) := by
  rw [leUnsigned_concat, pow_half_byte]
  have h2 : 256 ^ init.length * 128 ≤ 256 ^ init.length * last :=
    Nat.mul_le_mul_left _ hlast
  omega

theorem topBit_gt_leUnsigned (init : List Nat) (last : Nat) (hlast : last < 128)
    (hinit : ∀ b ∈ init, b < 256) :
    leUnsigned (init ++ [last]) < 2 ^ (8 * (init.length + 1) - 1) := by
  rw [leUnsigned_concat, pow_half_byte]
  have h2 : 256 ^ init.length * last ≤ 256 ^ init.length * 127 :=
    Nat.mul_le_mul_left _ (by omega)
  have h3 := leUnsigned_lt init hinit
  omega

/-- `varint` computes exactly the signed little-endian interpretation of its
input for every non-empty byte string of at most 8 bytes. -/
theorem varint_eq_signedLE (buf : List Nat) (hne : buf ≠ [])
    (hlen : buf.length ≤ 8) (hb : ∀ b ∈ buf, b < 256) :
    varint buf = some (signedLE buf) := by
  obtain ⟨init, last, rfl⟩ : ∃ init last, buf = init ++ [last] := by
    rcases List.eq_nil_or_concat buf with h | ⟨init, last, h⟩
    · exact absurd h hne
    · exact ⟨init, last, by simpa [List.concat_eq_append] using h⟩
  have hlast : last < 256 := hb last (by simp)
  have hlenbuf : (init ++ [last]).length = init.length + 1 := by simp
  have hn8 : init.length + 1 ≤ 8 := by rw [← hlenbuf]; exact hlen
  have hgetLast : (init ++ [last]).getLastD 0 = last := by
    simp [List.getLastD_concat]
  have hU_lt : leUnsigned (init ++ [last]) < 2 ^ (8 * (init.length + 1)) := by
    have := leUnsigned_lt (init ++ [last]) hb
    rwa [hlenbuf, show (256 : Nat) = 2 ^ 8 by norm_num, ← pow_mul] at this
  have hguard : ¬((init ++ [last]).length = 0 ∨ 8 < (init ++ [last]).length) := by
    rw [hlenbuf]; omega
  have hcase : ∀ b : Nat, b < 256 → (b &&& 0x80 = 0 ↔ b < 128) := by decide
  have hpow_le : (2:Nat) ^ (8 * (init.length + 1)) ≤ 2 ^ 64 :=
    Nat.pow_le_pow_right (by norm_num) (by omega)
  have hpow_half : (2:Nat) ^ (8 * (init.length + 1) - 1) ≤ 2 ^ 63 :=
    Nat.pow_le_pow_right (by norm_num) (by omega)
  have hpow_two : (2:Nat) ^ (8 * (init.length + 1)) = 2 * 2 ^ (8 * (init.length + 1) - 1) := by
    have h : 8 * (init.length + 1) = (8 * (init.length + 1) - 1) + 1 := by omega
    conv_lhs => rw [h]
    rw [pow_succ']
  by_cases htop : 128 ≤ last
  · -- top bit set: pad with 0xff, value is U - 2^(8n)
    have hulow := topBit_le_leUnsigned init last htop
    have hfull : leUnsigned (init ++ [last] ++ List.replicate (8 - (init.length + 1)) 0xff)
        = leUnsigned (init ++ [last]) + (2 ^ 64 - 2 ^ (8 * (init.length + 1))) := by
      rw [leUnsigned_append, leUnsigned_replicate_ff, hlenbuf,
        show (256 : Nat) = 2 ^ 8 by norm_num, ← pow_mul, ← pow_mul]
      have hprod : (2:Nat) ^ (8 * (init.length + 1)) * 2 ^ (8 * (8 - (init.length + 1)))
          = 2 ^ 64 := by
        rw [← pow_add]
        have h : 8 * (init.length + 1) + 8 * (8 - (init.length + 1)) = 64 := by omega
        rw [h]
      have h1 : 1 ≤ (2:Nat) ^ (8 * (8 - (init.length + 1))) := Nat.one_le_pow _ _ (by norm_num)
      rw [Nat.mul_sub_one]
      omega
    have hbit : last &&& 0x80 ≠ 0 := by have := hcase last hlast; omega
    simp only [varint, signedLE]
    rw [if_neg hguard, hgetLast, if_pos hbit, hlenbuf, hfull]
    rw [if_neg (show ¬(leUnsigned (init ++ [last]) +
      (2 ^ 64 - 2 ^ (8 * (init.length + 1))) < 2 ^ 63) by omega)]
    rw [if_neg (show ¬(leUnsigned (init ++ [last]) < 2 ^ (8 * (init.length + 1) - 1)) by omega)]
    have hcast : ((leUnsigned (init ++ [last]) + (2 ^ 64 - 2 ^ (8 * (init.length + 1))) : Nat)
        : Int) = (leUnsigned (init ++ [last]) : Int) + 2 ^ 64 - 2 ^ (8 * (init.length + 1)) := by
      rw [Nat.cast_add, Nat.cast_sub hpow_le]
      push_cast
      ring
    rw [hcast]
    congr 1
    ring
  · -- top bit clear: pad with 0x00, value is U itself
    have huhigh := topBit_gt_leUnsigned init last (by omega)
      (fun b hbm => hb b (by simp [hbm]))
    have hfull : leUnsigned (init ++ [last] ++ List.replicate (8 - (init.length + 1)) 0)
        = leUnsigned (init ++ [last]) := by
      rw [leUnsigned_append, leUnsigned_replicate_zero]
      omega
    have hbit : ¬(last &&& 0x80 ≠ 0) := by have := hcase last hlast; omega
    simp only [varint, signedLE]
    rw [if_neg hguard, hgetLast, if_neg hbit, hlenbuf, hfull]
    rw [if_pos (show leUnsigned (init ++ [last]) < 2 ^ 63 by omega)]
    rw [if_pos (show leUnsigned (init ++ [last]) < 2 ^ (8 * (init.length + 1) - 1) by omega)]

/-- Little-endian encoder used to state the varint round-trip property. -/
def encodeLE (w : Nat) (v : Nat) : List Nat :=
  match w with
  | 0 => []
  | w + 1 => v % 256 :: encodeLE w (v / 256)

theorem encodeLE_length (w v : Nat) : (encodeLE w v).length = w := by
  induction w generalizing v with
  | zero => rfl
  | succ n ih => simp [encodeLE, ih]

theorem encodeLE_bytes (w v : Nat) : ∀ b ∈ encodeLE w v, b < 256 := by
  induction w generalizing v with
  | zero => simp [encodeLE]
  | succ n ih =>
    intro b hbm
    simp only [encodeLE, List.mem_cons] at hbm
    rcases hbm with h | h
    · omega
    · exact ih _ b h

theorem leUnsigned_encodeLE (w v : Nat) (hv : v < 256 ^ w) :
    leUnsigned (encodeLE w v) = v := by
  induction w generalizing v with
  | zero => simp [encodeLE, leUnsigned]; omega
  | succ n ih =>
    simp only [encodeLE, leUnsigned]
    rw [ih (v / 256) (by rw [pow_succ] at hv; omega)]
    omega

theorem signedLE_encode8 (i : Int) (hlo : -(2 ^ 63) ≤ i) (hhi : i < 2 ^ 63) :
    signedLE (encodeLE 8 ((i % 2 ^ 64).toNat)) = i := by
  have hmod_nonneg : 0 ≤ i % 2 ^ 64 := Int.emod_nonneg i (by norm_num)
  have hmod_lt : i % 2 ^ 64 < 2 ^ 64 := Int.emod_lt_of_pos i (by norm_num)
  have hlen : (encodeLE 8 ((i % 2 ^ 64).toNat)).length = 8 := encodeLE_length _ _
  have hval : leUnsigned (encodeLE 8 ((i % 2 ^ 64).toNat)) = (i % 2 ^ 64).toNat := by
    apply leUnsigned_encodeLE
    have h : (256:Nat) ^ 8 = 2 ^ 64 := by norm_num
    rw [h]
    omega
  rw [signedLE, hval, hlen]
  rw [show (8 * 8 - 1 : Nat) = 63 from rfl, show (8 * 8 : Nat) = 64 from rfl]
  split
  · omega
  · omega

/-- C9: `varint` interprets its input as a signed little-endian sign-extended
integer; edge values `[0x80] → -128`, `[0xff,0x7f] → 32767`,
`[0x00,0x80] → -32768`; and every signed 64-bit value round-trips through an
8-byte little-endian encoding, preserving sign. -/
theorem claim_C9_varint_edges :
    varint [0x80] = some (-128) ∧
    varint [0xff, 0x7f] = some 32767 ∧
    varint [0x00, 0x80] = some (-32768) ∧
    (∀ buf : List Nat, buf ≠ [] → buf.length ≤ 8 → (∀ b ∈ buf, b < 256) →
      varint buf = some (signedLE buf)) ∧
    (∀ i : Int, -(2 ^ 63) ≤ i → i < 2 ^ 63 →
      varint (encodeLE 8 ((i % 2 ^ 64).toNat)) = some i) := by
  refine ⟨by decide, by decide, by decide, varint_eq_signedLE, ?_⟩
  intro i hlo hhi
  have hne : encodeLE 8 ((i % 2 ^ 64).toNat) ≠ [] := by
    intro h
    have := encodeLE_length 8 ((i % 2 ^ 64).toNat)
    rw [h] at this
    simp at this
  rw [varint_eq_signedLE _ hne (by rw [encodeLE_length]) (encodeLE_bytes _ _)]
  rw [signedLE_encode8 i hlo hhi]

/-- Closed witness for C9's quantified parts at concrete inputs. -/
theorem claim_C9_witness :
    varint [0x05, 0x01] = some (signedLE [0x05, 0x01]) ∧
    varint (encodeLE 8 (((-300 : Int) % 2 ^ 64).toNat)) = some (-300) :=
  ⟨claim_C9_varint_edges.2.2.2.1 [0x05, 0x01] (by decide) (by decide) (by decide),
   claim_C9_varint_edges.2.2.2.2 (-300) (by decide) (by decide)⟩

/-! ## Runlist (mapping-pair) decoding — `attr.AttributeHeader.dataruns` -/

/-- `AttributeHeader.dataruns`, threading the running LCN accumulator
`offset`.  The input list is the mapping-pair byte region starting at
`MappingPairsOffset`.  A read past the end of the available bytes returns
fewer bytes (like `fh.read`); an empty header read (`fh.read(1)[0]`) or an
empty/oversized varint read raises in Python, modelled as `none`.  The
`while True` loop is embedded with explicit fuel; every iteration consumes
at least one byte, so `buf.length` fuel (see `dataruns`) never runs out. -/
def datarunsGo : Nat → List Nat → Int → Option (List (Option Int × Int))
  | _, [], _ => none
  | 0, _ :: _, _ => none
  | fuel + 1, v :: rest, offset =>
    if v = 0 then some []
    else
      match varint (rest.take (v &&& 0xF)) with
      | none => none
      | some runSize =>
        if (v >>> 4) &&& 0xF = 0 then
          match datarunsGo fuel (rest.drop (v &&& 0xF)) offset with
          | none => none
          | some runs => some ((none, runSize) :: runs)
        else
          match varint ((rest.drop (v &&& 0xF)).take ((v >>> 4) &&& 0xF)) with
          | none => none
          | some d =>
            match datarunsGo fuel ((rest.drop (v &&& 0xF)).drop ((v >>> 4) &&& 0xF))
                (offset + d) with
            | none => none
            | some runs => some ((some (offset + d), runSize) :: runs)

/-- `AttributeHeader.dataruns` with the accumulator initialized to 0. -/
def dataruns (buf : List Nat) : Option (List (Option Int × Int)) :=
  datarunsGo buf.length buf 0

/-- Specification-level decoder: parse each run as a (signed delta, length)
pair without accumulating LCNs. -/
def runDeltasGo : Nat → List Nat → Option (List (Option Int × Int))
  | _, [] => none
  | 0, _ :: _ => none
  | fuel + 1, v :: rest =>
    if v = 0 then some []
    else
      match varint (rest.take (v &&& 0xF)) with
      | none => none
      | some runSize =>
        if (v >>> 4) &&& 0xF = 0 then
          match runDeltasGo fuel (rest.drop (v &&& 0xF)) with
          | none => none
          | some runs => some ((none, runSize) :: runs)
        else
          match varint ((rest.drop (v &&& 0xF)).take ((v >>> 4) &&& 0xF)) with
          | none => none
          | some d =>
            match runDeltasGo fuel ((rest.drop (v &&& 0xF)).drop ((v >>> 4) &&& 0xF)) with
            | none => none
            | some runs => some ((some d, runSize) :: runs)

/-- Specification-level accumulation: a running LCN accumulator over the
signed deltas; sparse runs leave the accumulator unchanged. -/
def accumulateRuns (offset : Int) : List (Option Int × Int) → List (Option Int × Int)
  | [] => []
  | (none, s) :: r => (none, s) :: accumulateRuns offset r
  | (some d, s) :: r => (some (offset + d), s) :: accumulateRuns (offset + d) r

/-- Decoder modelled from the claim's words, which read the run length as an
*unsigned* little-endian integer (everything else as in the source).  Used
only to exhibit where the claim and the code disagree. -/
def claimDatarunsGo : Nat → List Nat → Int → Option (List (Option Int × Int))
  | _, [], _ => none
  | 0, _ :: _, _ => none
  | fuel + 1, v :: rest, offset =>
    if v = 0 then some []
    else
      if (v >>> 4) &&& 0xF = 0 then
        match claimDatarunsGo fuel (rest.drop (v &&& 0xF)) offset with
        | none => none
        | some runs => some ((none, (leUnsigned (rest.take (v &&& 0xF)) : Int)) :: runs)
      else
        match varint ((rest.drop (v &&& 0xF)).take ((v >>> 4) &&& 0xF)) with
        | none => none
        | some d =>
          match claimDatarunsGo fuel ((rest.drop (v &&& 0xF)).drop ((v >>> 4) &&& 0xF))
              (offset + d) with
          | none => none
          | some runs =>
            some ((some (offset + d), (leUnsigned (rest.take (v &&& 0xF)) : Int)) :: runs)

theorem datarunsGo_eq_deltas (fuel : Nat) :
    ∀ (buf : List Nat) (offset : Int),
      datarunsGo fuel buf offset = (runDeltasGo fuel buf).map (accumulateRuns offset) := by
  induction fuel with
  | zero =>
    intro buf offset
    cases buf <;> simp [datarunsGo, runDeltasGo]
  | succ n ih =>
    intro buf offset
    match buf with
    | [] => simp [datarunsGo, runDeltasGo]
    | v :: rest =>
      by_cases hv : v = 0
      · subst hv; simp [datarunsGo, runDeltasGo, accumulateRuns]
      · simp only [datarunsGo, runDeltasGo, if_neg hv]
        cases hsz : varint (rest.take (v &&& 0xF)) with
        | none => simp
        | some runSize =>
          dsimp only
          by_cases hol : (v >>> 4) &&& 0xF = 0
          · rw [if_pos hol, if_pos hol, ih (rest.drop (v &&& 0xF)) offset]
            cases runDeltasGo n (rest.drop (v &&& 0xF)) <;> simp [accumulateRuns]
          · rw [if_neg hol, if_neg hol]
            cases hd : varint ((rest.drop (v &&& 0xF)).take ((v >>> 4) &&& 0xF)) with
            | none => simp
            | some d =>
              dsimp only
              rw [ih ((rest.drop (v &&& 0xF)).drop ((v >>> 4) &&& 0xF)) (offset + d)]
              cases runDeltasGo n ((rest.drop (v &&& 0xF)).drop ((v >>> 4) &&& 0xF)) <;>
                simp [accumulateRuns]

/-- C1 (corrected): the run length is decoded by the same signed `varint`
as the offset delta, not as an unsigned integer.  On the mapping pairs
`[0x11, 0x80, 0x01, 0x00]` the source decodes run length -128 where the
claim's unsigned reading yields 128. -/
theorem claim_C1_counterexample :
    dataruns [0x11, 0x80, 0x01, 0x00] = some [(some 1, -128)] ∧
    claimDatarunsGo 4 [0x11, 0x80, 0x01, 0x00] 0 = some [(some 1, 128)] ∧
    dataruns [0x11, 0x80, 0x01, 0x00] ≠ claimDatarunsGo 4 [0x11, 0x80, 0x01, 0x00] 0 := by
  refine ⟨by decide, by decide, by decide⟩

/-- C1 (amended): `dataruns` consumes header bytes until a zero header byte;
for header byte `v` it reads `v & 0xF` bytes as a little-endian **signed**
(sign-extended) run length; if the high nibble `v >> 4` is 0 the run is
sparse with LCN `none`, otherwise that many bytes are read as a signed
little-endian integer and added to a running LCN accumulator initialized
to 0; sparse runs do not change the accumulator.  Stated as: the source
decoder equals the delta-parse (`runDeltasGo`) followed by accumulation
(`accumulateRuns`), and each variable integer field means `signedLE`. -/
theorem claim_C1_dataruns :
    (∀ (fuel : Nat) (buf : List Nat) (offset : Int),
      datarunsGo fuel buf offset = (runDeltasGo fuel buf).map (accumulateRuns offset)) ∧
    (∀ buf : List Nat, dataruns buf = (runDeltasGo buf.length buf).map (accumulateRuns 0)) ∧
    (∀ bytes : List Nat, bytes ≠ [] → bytes.length ≤ 8 → (∀ b ∈ bytes, b < 256) →
      varint bytes = some (signedLE bytes)) :=
  ⟨datarunsGo_eq_deltas, fun buf => datarunsGo_eq_deltas buf.length buf 0, varint_eq_signedLE⟩

/-- Closed witness for C1 at a concrete two-run mapping-pair sequence. -/
theorem claim_C1_witness :
    datarunsGo 6 [0x21, 0x10, 0x00, 0x01, 0x11, 0x02, 0xff, 0x00] 0
      = (runDeltasGo 6 [0x21, 0x10, 0x00, 0x01, 0x11, 0x02, 0xff, 0x00]).map
          (accumulateRuns 0) ∧
    varint [0x02, 0x80] = some (signedLE [0x02, 0x80]) :=
  ⟨claim_C1_dataruns.1 6 [0x21, 0x10, 0x00, 0x01, 0x11, 0x02, 0xff, 0x00] 0,
   claim_C1_dataruns.2.2 [0x02, 0x80] (by decide) (by decide) (by decide)⟩

/-! ## Boot-sector geometry — `NTFS.__init__` (ntfs.py) -/

/-- Effective sectors per cluster: a negative `SectorsPerCluster` value `n`
(an `INT8`) encodes `1 << -n` sectors (`ntfs.py` lines 56-59). -/
def sectorsPerClusterVal (spc : Int) : Int :=
  if spc < 0 then (2 : Int) ^ (-spc).toNat else spc

/-- `cluster_size = sectors_per_cluster * sector_size`. -/
def clusterSize (bytesPerSector : Int) (spc : Int) : Int :=
  sectorsPerClusterVal spc * bytesPerSector

/-- `_record_size`: a negative `ClustersPerFileRecordSegment` value `n`
encodes `1 << -n` bytes, else `n * cluster_size` (`ntfs.py` lines 62-65). -/
def recordSize (cfrs : Int) (cluster : Int) : Int :=
  if cfrs < 0 then (2 : Int) ^ (-cfrs).toNat else cfrs * cluster

/-- `_index_size`: a negative `ClustersPerIndexBuffer` value `n` encodes
`2 << -n` bytes, else `n * cluster_size` (`ntfs.py` lines 67-70). -/
def indexSize (cpib : Int) (cluster : Int) : Int :=
  if cpib < 0 then 2 * (2 : Int) ^ (-cpib).toNat else cpib * cluster

/-- C6: boot-sector geometry derivation.  Negative `SectorsPerCluster` `-n`
gives `2^n` sectors per cluster; negative `ClustersPerFileRecordSegment`
`-n` gives record size `2^n` bytes; negative `ClustersPerIndexBuffer` `-n`
gives index-buffer size `2^(n+1)` bytes (the `2 << -n` off-by-one); and any
encoding with 0x200 effective sectors per cluster and 0x1000-byte sectors
yields a 0x200000-byte cluster — in particular the `INT8` encoding -9. -/
theorem claim_C6_geometry :
    (∀ n : Nat, 0 < n →
      sectorsPerClusterVal (-(n : Int)) = 2 ^ n ∧
      (∀ c : Int, recordSize (-(n : Int)) c = 2 ^ n) ∧
      (∀ c : Int, indexSize (-(n : Int)) c = 2 ^ (n + 1))) ∧
    (∀ spc : Int, sectorsPerClusterVal spc = 0x200 → clusterSize 0x1000 spc = 0x200000) ∧
    sectorsPerClusterVal (-9) = 0x200 ∧ clusterSize 0x1000 (-9) = 0x200000 := by
  refine ⟨?_, ?_, by decide, by decide⟩
  · intro n hn
    have hneg : (-(n : Int)) < 0 := by omega
    refine ⟨?_, fun c => ?_, fun c => ?_⟩
    · unfold sectorsPerClusterVal
      rw [if_pos hneg, neg_neg, Int.toNat_natCast]
    · unfold recordSize
      rw [if_pos hneg, neg_neg, Int.toNat_natCast]
    · unfold indexSize
      rw [if_pos hneg, neg_neg, Int.toNat_natCast, pow_succ]
      ring
  · intro spc hspc
    simp [clusterSize, hspc]

/-- Closed witness for C6 at the 2-MiB-cluster boot sector values. -/
theorem claim_C6_witness :
    sectorsPerClusterVal (-9) = 2 ^ 9 ∧
    recordSize (-10) 0x200000 = 2 ^ 10 ∧
    indexSize (-12) 0x200000 = 2 ^ 13 ∧
    clusterSize 0x1000 (-9) = 0x200000 :=
  ⟨(claim_C6_geometry.1 9 (by decide)).1,
   (claim_C6_geometry.1 10 (by decide)).2.1 0x200000,
   (claim_C6_geometry.1 12 (by decide)).2.2 0x200000,
   claim_C6_geometry.2.1 (-9) (by decide)⟩

/-! ## AttributeMap / AttributeCollection — util.py -/

/-- The parts of a parsed attribute that `AttributeMap` inspects:
`attr.header.type.value` and `attr.header.name`. -/
structure PyAttr where
  typeCode : Nat
  name : String
deriving DecidableEq, Repr

/-- `AttributeMap`'s backing dict, keyed by the integer attribute type code
(enum keys are converted to their `.value` before lookup, so `Nat` keys model
both forms). -/
abbrev AttributeMap := List (Nat × List PyAttr)

/-- `AttributeMap.__getitem__`: `self.data.get(item, AttributeCollection())` —
total, returning the empty collection when the type code is absent. -/
def mapGetItem (m : AttributeMap) (t : Nat) : List PyAttr :=
  (List.lookup t m).getD []

/-- `AttributeMap.find(name, attr_type)`: filter the collection for the type
by case-insensitive name equality.  Python lower-cases with `str.lower`;
the case-folding function is passed explicitly as `lower`. -/
def mapFind (lower : String → String) (m : AttributeMap) (name : String) (t : Nat) :
    List PyAttr :=
  (mapGetItem m t).filter (fun a => lower a.name = lower name)

/-- `MftRecord.has_stream(name, type)`: `bool(self.attributes.find(...))`. -/
def hasStream (lower : String → String) (m : AttributeMap) (name : String) (t : Nat) :
    Bool :=
  !(mapFind lower m name t).isEmpty

/-- C10: attribute lookup is total.  `m[t]` returns the stored collection, or
the empty one when no attribute of type `t` is present — never an error;
`find` returns exactly the attributes of that type whose case-folded name
matches; and `has_stream` is `false` (rather than an error) exactly when no
such attribute exists. -/
theorem claim_C10_attribute_map_total :
    (∀ (m : AttributeMap) (t : Nat), (∀ p ∈ m, p.1 ≠ t) → mapGetItem m t = []) ∧
    (∀ (m : AttributeMap) (t : Nat) (l : List PyAttr),
      List.lookup t m = some l → mapGetItem m t = l) ∧
    (∀ (lower : String → String) (m : AttributeMap) (name : String) (t : Nat)
      (a : PyAttr),
      a ∈ mapFind lower m name t ↔ a ∈ mapGetItem m t ∧ lower a.name = lower name) ∧
    (∀ (lower : String → String) (m : AttributeMap) (name : String) (t : Nat),
      hasStream lower m name t = false ↔ mapFind lower m name t = []) := by
  refine ⟨?_, ?_, ?_, ?_⟩
  · intro m t hnone
    unfold mapGetItem
    have : List.lookup t m = none := by
      induction m with
      | nil => rfl
      | cons p rest ih =>
        have hp : p.1 ≠ t := hnone p (by simp)
        have hbeq : (t == p.1) = false := by
          simp only [beq_eq_false_iff_ne]
          exact Ne.symm hp
        simp only [List.lookup, hbeq]
        exact ih (fun q hq => hnone q (by simp [hq]))
    rw [this]
    rfl
  · intro m t l hl
    unfold mapGetItem
    rw [hl]
    rfl
  · intro lower m name t a
    unfold mapFind
    rw [List.mem_filter]
    simp
  · intro lower m name t
    unfold hasStream
    cases h : mapFind lower m name t <;> simp [h]

/-- Closed witness for C10 on a concrete two-attribute map. -/
theorem claim_C10_witness :
    mapGetItem [(0x10, [⟨0x10, ""⟩]), (0x80, [⟨0x80, "Zone.Identifier"⟩])] 0x30 = [] ∧
    (hasStream id [(0x10, [⟨0x10, ""⟩]), (0x80, [⟨0x80, "Zone.Identifier"⟩])] "" 0xA0
      = false ↔
      mapFind id [(0x10, [⟨0x10, ""⟩]), (0x80, [⟨0x80, "Zone.Identifier"⟩])] "" 0xA0 = []) :=
  ⟨claim_C10_attribute_map_total.1 _ 0x30 (by decide),
   claim_C10_attribute_map_total.2.2.2 id _ "" 0xA0⟩

/-! ## Fixup application — `util.apply_fixup`

The Python function copies its input into a `bytearray` and works through
live `memoryview`s; the mutable buffer is embedded as `Buf`, a length plus a
total read function (reads past the end yield 0; on the validated path every
access is in range). -/

/-- A byte buffer: length and contents. -/
@[ext]
structure Buf where
  len : Nat
  get : Nat → Nat

/-- Build a buffer from a byte list. -/
def Buf.ofList (l : List Nat) : Buf :=
  ⟨l.length, fun i => l.getD i 0⟩

/-- Write one byte (`view[p] = v`). -/
def Buf.write (b : Buf) (p v : Nat) : Buf :=
  ⟨b.len, fun i => if i = p then v else b.get i⟩

/-- Extensional equality of buffers (equality of Python `bytes`). -/
def BufEqv (a b : Buf) : Prop :=
  a.len = b.len ∧ ∀ i, i < a.len → a.get i = b.get i

instance (a b : Buf) : Decidable (BufEqv a b) := by
  unfold BufEqv
  infer_instance

/-- `struct.unpack("<H", view[o:o+2])`. -/
def leU16 (b : Buf) (o : Nat) : Nat :=
  b.get o + 256 * b.get (o + 1)

/-- The per-sector loop of `apply_fixup` (`util.py` lines 212-219): at
iteration `i` compare the live bytes at `SECTOR_SIZE-2 + SECTOR_SIZE*i`
against the live sample at `F`, then overwrite them with the live fixup
bytes at `F+2+2i` — memoryview reads see earlier writes.  `i` is the
iteration index, `k` the remaining count. -/
def fixLoop (F : Nat) : Nat → Nat → Buf → Option Buf
  | _, 0, b => some b
  | i, k + 1, b =>
    if b.get (510 + 512 * i) = b.get F ∧ b.get (511 + 512 * i) = b.get (F + 1) then
      fixLoop F (i + 1) k
        ((b.write (510 + 512 * i) (b.get (F + 2 + 2 * i))).write (511 + 512 * i)
          (b.get (F + 3 + 2 * i)))
    else none

/-- `util.apply_fixup`.  `none` models both the `struct.error` on inputs
shorter than 6 bytes and the two `ValueError`s (bad geometry, sample
mismatch).  `F` is the fixup offset read at bytes 4-5, `N = len >> 9` the
sector count. -/
def apply_fixup (data : Buf) : Option Buf :=
  if data.len < 6 then none
  else
    if leU16 data 4 % 2 = 1 ∨ leU16 data 4 + (data.len / 512 + 1) * 2 > 512 ∨
        data.len / 512 = 0 ∨ (data.len / 512) * 512 > data.len then none
    else fixLoop (leU16 data 4) 0 (data.len / 512) data

/-- Buffer contents after the first `j` iterations of the fixup loop on the
original buffer `b` with fixup offset `F`: sector `i < j` has its last two
bytes replaced by the fixup bytes at `F+2+2i` — read from the original
buffer, except that when the fixup array extends to byte 512 the entry for
a sector `i ≥ 1` at position 510 was overwritten by iteration 0 and holds
the original bytes at `F+2`. -/
def fixupState (b : Buf) (F : Nat) (j : Nat) : Buf :=
  ⟨b.len, fun pos =>
    if pos % 512 = 510 ∧ pos / 512 < j then
      (if 1 ≤ pos / 512 ∧ F + 2 + 2 * (pos / 512) = 510 then b.get (F + 2)
       else b.get (F + 2 + 2 * (pos / 512)))
    else if pos % 512 = 511 ∧ pos / 512 < j then
      (if 1 ≤ pos / 512 ∧ F + 3 + 2 * (pos / 512) = 511 then b.get (F + 3)
       else b.get (F + 3 + 2 * (pos / 512)))
    else b.get pos⟩

/-- Specification-level output of `apply_fixup` on success. -/
def fixupSpecOut (b : Buf) : Buf :=
  fixupState b (leU16 b 4) (b.len / 512)

/-- Specification-level success condition of `apply_fixup`: the negation of
"F is odd, or F + 2(N+1) > 512, or N = 0, or N·512 > len, or some sector's
last two bytes differ from the sample". -/
def fixupOk (b : Buf) : Prop :=
  leU16 b 4 % 2 = 0 ∧ leU16 b 4 + 2 * (b.len / 512 + 1) ≤ 512 ∧ 1 ≤ b.len / 512 ∧
    (b.len / 512) * 512 ≤ b.len ∧
    ∀ i, i < b.len / 512 →
      b.get (510 + 512 * i) = b.get (leU16 b 4) ∧
      b.get (511 + 512 * i) = b.get (leU16 b 4 + 1)

instance (b : Buf) : Decidable (fixupOk b) := by
  unfold fixupOk
  infer_instance

/-- `unfixup`, modelled from the spec's words: re-plant the sample at each
sector's last two bytes. -/
def unfixup (b : Buf) : Buf :=
  ⟨b.len, fun pos =>
    if pos % 512 = 510 ∧ pos / 512 < b.len / 512 then b.get (leU16 b 4)
    else if pos % 512 = 511 ∧ pos / 512 < b.len / 512 then b.get (leU16 b 4 + 1)
    else b.get pos⟩

theorem fixupState_zero (b : Buf) (F : Nat) : fixupState b F 0 = b := by
  unfold fixupState
  cases b with
  | mk len get =>
    simp only [Buf.mk.injEq, true_and]
    funext pos
    simp

theorem fixupState_len (b : Buf) (F j : Nat) : (fixupState b F j).len = b.len := rfl

theorem fixupState_get_untouched (b : Buf) (F j pos : Nat)
    (h : (pos % 512 ≠ 510 ∧ pos % 512 ≠ 511) ∨ j ≤ pos / 512) :
    (fixupState b F j).get pos = b.get pos := by
  unfold fixupState
  simp only []
  split_ifs with h1 h2
  · exfalso; omega
  · exfalso; omega
  · exfalso; omega
  · exfalso; omega
  · rfl

theorem fixLoop_write_step (b : Buf) (F j N : Nat)
    (hF2 : F % 2 = 0) (hFle : F + 2 * (N + 1) ≤ 512) (hjN : j < N) :
    (((fixupState b F j).write (510 + 512 * j) ((fixupState b F j).get (F + 2 + 2 * j))).write
        (511 + 512 * j) ((fixupState b F j).get (F + 3 + 2 * j)))
      = fixupState b F (j + 1) := by
  unfold Buf.write fixupState
  simp only [Buf.mk.injEq, true_and]
  funext pos
  split_ifs <;> first
    | rfl
    | (exfalso; omega)
    | (congr 1; omega)

theorem fixLoop_correct (b : Buf) (F N : Nat)
    (hF2 : F % 2 = 0) (hFle : F + 2 * (N + 1) ≤ 512) :
    ∀ k j, j + k = N →
      fixLoop F j k (fixupState b F j)
        = if (∀ i, j ≤ i → i < N →
              b.get (510 + 512 * i) = b.get F ∧ b.get (511 + 512 * i) = b.get (F + 1))
          then some (fixupState b F N) else none := by
  intro k
  induction k with
  | zero =>
    intro j hj
    rw [if_pos (by intro i h1 h2; omega)]
    rw [show j = N by omega]
    rfl
  | succ k ih =>
    intro j hj
    have hjN : j < N := by omega
    have hFlow : F + 2 ≤ 512 := by omega
    have e1 : (fixupState b F j).get (510 + 512 * j) = b.get (510 + 512 * j) :=
      fixupState_get_untouched b F j _ (by right; omega)
    have e2 : (fixupState b F j).get (511 + 512 * j) = b.get (511 + 512 * j) :=
      fixupState_get_untouched b F j _ (by right; omega)
    have e3 : (fixupState b F j).get F = b.get F :=
      fixupState_get_untouched b F j _ (by left; omega)
    have e4 : (fixupState b F j).get (F + 1) = b.get (F + 1) :=
      fixupState_get_untouched b F j _ (by left; omega)
    show (if (fixupState b F j).get (510 + 512 * j) = (fixupState b F j).get F ∧
        (fixupState b F j).get (511 + 512 * j) = (fixupState b F j).get (F + 1) then _ else _) = _
    rw [e1, e2, e3, e4]
    by_cases hmatch : b.get (510 + 512 * j) = b.get F ∧ b.get (511 + 512 * j) = b.get (F + 1)
    · rw [if_pos hmatch, fixLoop_write_step b F j N hF2 hFle hjN,
        ih (j + 1) (by omega)]
      by_cases hall : ∀ i, j + 1 ≤ i → i < N →
          b.get (510 + 512 * i) = b.get F ∧ b.get (511 + 512 * i) = b.get (F + 1)
      · rw [if_pos hall, if_pos]
        intro i h1 h2
        rcases Nat.eq_or_lt_of_le h1 with h | h
        · subst h; exact hmatch
        · exact hall i h h2
      · rw [if_neg hall, if_neg]
        intro hcon
        exact hall (fun i h1 h2 => hcon i (by omega) h2)
    · rw [if_neg hmatch, if_neg]
      intro hcon
      exact hmatch (hcon j le_rfl hjN)

/-- `apply_fixup` succeeds exactly on `fixupOk` inputs and then returns
`fixupSpecOut`; purity of the embedding reflects that the Python code works
on a `bytearray` copy and never mutates its input `bytes`. -/
theorem apply_fixup_eq (b : Buf) :
    apply_fixup b = if fixupOk b then some (fixupSpecOut b) else none := by
  unfold apply_fixup
  by_cases hlen : b.len < 6
  · rw [if_pos hlen]
    have : ¬ fixupOk b := by
      intro h
      obtain ⟨_, _, h3, h4, _⟩ := h
      omega
    rw [if_neg this]
  · rw [if_neg hlen]
    by_cases hguard : leU16 b 4 % 2 = 1 ∨ leU16 b 4 + (b.len / 512 + 1) * 2 > 512 ∨
        b.len / 512 = 0 ∨ (b.len / 512) * 512 > b.len
    · rw [if_pos hguard]
      have : ¬ fixupOk b := by
        intro h
        obtain ⟨h1, h2, h3, h4, _⟩ := h
        omega
      rw [if_neg this]
    · rw [if_neg hguard]
      push_neg at hguard
      obtain ⟨h1, h2, h3, h4⟩ := hguard
      have hcore := fixLoop_correct b (leU16 b 4) (b.len / 512)
        (by omega) (by omega) (b.len / 512) 0 (by omega)
      rw [fixupState_zero] at hcore
      rw [hcore]
      by_cases hmatch : ∀ i, i < b.len / 512 →
          b.get (510 + 512 * i) = b.get (leU16 b 4) ∧
          b.get (511 + 512 * i) = b.get (leU16 b 4 + 1)
      · rw [if_pos (fun i _ h2 => hmatch i h2), if_pos]
        · rfl
        · exact ⟨by omega, by omega, by omega, by omega, hmatch⟩
      · rw [if_neg (fun hcon => hmatch (fun i hi => hcon i (Nat.zero_le i) hi)), if_neg]
        intro h
        exact hmatch h.2.2.2.2

theorem unfixup_spec (b : Buf) (h : fixupOk b) : unfixup (fixupSpecOut b) = b := by
  obtain ⟨h1, h2, h3, h4, hmatch⟩ := h
  have hF : leU16 (fixupSpecOut b) 4 = leU16 b 4 := by
    unfold leU16 fixupSpecOut
    rw [fixupState_get_untouched b _ _ 4 (by left; omega),
        fixupState_get_untouched b _ _ 5 (by left; omega)]
  apply Buf.ext
  · rfl
  · funext pos
    show (if pos % 512 = 510 ∧ pos / 512 < (fixupSpecOut b).len / 512 then
        (fixupSpecOut b).get (leU16 (fixupSpecOut b) 4)
      else if pos % 512 = 511 ∧ pos / 512 < (fixupSpecOut b).len / 512 then
        (fixupSpecOut b).get (leU16 (fixupSpecOut b) 4 + 1)
      else (fixupSpecOut b).get pos) = b.get pos
    have hlen : (fixupSpecOut b).len = b.len := rfl
    rw [hF, hlen]
    by_cases hb1 : pos % 512 = 510 ∧ pos / 512 < b.len / 512
    · rw [if_pos hb1]
      unfold fixupSpecOut
      rw [fixupState_get_untouched b _ _ _ (by left; omega)]
      conv_rhs => rw [show pos = 510 + 512 * (pos / 512) by omega]
      exact ((hmatch (pos / 512) (by omega)).1).symm
    · rw [if_neg hb1]
      by_cases hb2 : pos % 512 = 511 ∧ pos / 512 < b.len / 512
      · rw [if_pos hb2]
        unfold fixupSpecOut
        rw [fixupState_get_untouched b _ _ _ (by left; omega)]
        conv_rhs => rw [show pos = 511 + 512 * (pos / 512) by omega]
        exact ((hmatch (pos / 512) (by omega)).2).symm
      · rw [if_neg hb2]
        exact fixupState_get_untouched b _ _ pos (by omega)

theorem apply_unfixup_spec (b : Buf) (h : fixupOk b) :
    apply_fixup (unfixup (fixupSpecOut b)) = some (fixupSpecOut b) := by
  rw [unfixup_spec b h, apply_fixup_eq, if_pos h]

/-- C4 (amended): `apply_fixup` fails exactly when the fixup offset `F` is
odd, or `F + 2(N+1) > 512`, or `N = 0`, or `N·512 > len`, or some sector's
last two bytes differ from the sample (`fixupOk` is the negation of that
disjunction); on success it returns `fixupSpecOut`, in which each sector
`i` ends with the fixup-array bytes at `F+2+2i` as read live from the
mutating buffer — the original `replacement[i]`, except that when the
fixup array extends to byte 512 (`F+2(N+1) = 512`, `N ≥ 2`) sector `N-1`
receives the original `replacement[0]`, whose array slot was overwritten
by iteration 0.  The input buffer is never modified (the embedding is a
pure function on `Buf`, as the Python code copies into a `bytearray`). -/
theorem claim_C4_fixup :
    (∀ b : Buf, apply_fixup b = if fixupOk b then some (fixupSpecOut b) else none) ∧
    (∀ b : Buf, apply_fixup b = none ↔ ¬ fixupOk b) := by
  refine ⟨apply_fixup_eq, fun b => ?_⟩
  rw [apply_fixup_eq]
  by_cases h : fixupOk b
  · simp [h]
  · simp [h]

/-- The 1024-byte counterexample block for C4: fixup offset 506, so the
fixup array occupies bytes 506..512 and its last entry coincides with
sector 0's last two bytes. -/
def cex4 : List Nat :=
  [0, 0, 0, 0, 0xfa, 0x01] ++ List.replicate 500 0 ++
    [0x41, 0x42, 0x43, 0x44, 0x41, 0x42] ++ List.replicate 510 0 ++ [0x41, 0x42]

/-- C4 counterexample: on `cex4` (`F = 506`, `N = 2`, `replacement[1]` is the
byte pair at offsets 510-511, value `0x41 0x42`), `apply_fixup` succeeds but
sector 1's last two bytes become `0x43 0x44` — `replacement[0]` — because
iteration 0 overwrites the array slot of `replacement[1]` before it is
read.  This refutes "for each sector i, the last two bytes are replaced by
replacement[i]". -/
theorem claim_C4_counterexample :
    (apply_fixup (Buf.ofList cex4)).map (fun out => (out.get 1022, out.get 1023))
      = some (0x43, 0x44) ∧
    ((Buf.ofList cex4).get (506 + 2 + 2 * 1), (Buf.ofList cex4).get (506 + 3 + 2 * 1))
      = (0x41, 0x42) ∧
    ((0x43, 0x44) : Nat × Nat) ≠ (0x41, 0x42) := by
  refine ⟨by decide, by decide, by decide⟩

/-- C5 (amended): for every block on which `apply_fixup` succeeds,
re-planting the sample over the *output* restores the input
(`unfixup (apply_fixup x) = x`), and applying the fixup to that restored
block returns the same output (`apply_fixup (unfixup (apply_fixup x)) =
apply_fixup x`).  The claim's `apply_fixup (apply_fixup x) = apply_fixup x`
and `apply_fixup (unfixup x) = x` fail: see the counterexample. -/
theorem claim_C5_roundtrip :
    ∀ b out : Buf, apply_fixup b = some out →
      unfixup out = b ∧ apply_fixup (unfixup out) = some out := by
  intro b out h
  rw [apply_fixup_eq] at h
  by_cases hok : fixupOk b
  · rw [if_pos hok] at h
    obtain rfl : fixupSpecOut b = out := by injection h
    exact ⟨unfixup_spec b hok, apply_unfixup_spec b hok⟩
  · rw [if_neg hok] at h
    exact absurd h (by simp)

/-- The 512-byte counterexample block for C5: fixup offset 8, sample
`0x11 0x22`, replacement `0x33 0x44`. -/
def cex5 : List Nat :=
  [0, 0, 0, 0, 8, 0, 0, 0, 0x11, 0x22, 0x33, 0x44] ++ List.replicate 498 0 ++ [0x11, 0x22]

/-- C5 counterexample: `apply_fixup` succeeds on `cex5`, but applying it
again to the output fails (the output's sector ends hold the replacement,
not the sample), so `apply_fixup (apply_fixup x)) ≠ apply_fixup x`; and
since `unfixup x = x` for any block that passes validation,
`apply_fixup (unfixup x) = apply_fixup x ≠ x` as well (byte 510 changes
from 0x11 to 0x33). -/
theorem claim_C5_counterexample :
    (apply_fixup (Buf.ofList cex5)).isSome = true ∧
    ((apply_fixup (Buf.ofList cex5)).bind apply_fixup).isSome = false ∧
    unfixup (Buf.ofList cex5) = Buf.ofList cex5 ∧
    (apply_fixup (unfixup (Buf.ofList cex5))).map (fun out => out.get 510) = some 0x33 ∧
    (Buf.ofList cex5).get 510 = 0x11 := by
  refine ⟨by decide, by decide, ?_, by decide, by decide⟩
  apply Buf.ext
  · rfl
  · funext pos
    show (if pos % 512 = 510 ∧ pos / 512 < (Buf.ofList cex5).len / 512 then
        (Buf.ofList cex5).get (leU16 (Buf.ofList cex5) 4)
      else if pos % 512 = 511 ∧ pos / 512 < (Buf.ofList cex5).len / 512 then
        (Buf.ofList cex5).get (leU16 (Buf.ofList cex5) 4 + 1)
      else (Buf.ofList cex5).get pos) = (Buf.ofList cex5).get pos
    have hlen : (Buf.ofList cex5).len = 512 := by decide
    rw [hlen]
    by_cases hb1 : pos % 512 = 510 ∧ pos / 512 < 512 / 512
    · rw [if_pos hb1]
      rw [show pos = 510 by omega]
      decide
    · rw [if_neg hb1]
      by_cases hb2 : pos % 512 = 511 ∧ pos / 512 < 512 / 512
      · rw [if_pos hb2]
        rw [show pos = 511 by omega]
        decide
      · rw [if_neg hb2]

/-- Closed witness for C5 at the concrete block `cex5`. -/
theorem claim_C5_witness :
    unfixup (fixupSpecOut (Buf.ofList cex5)) = Buf.ofList cex5 ∧
    apply_fixup (unfixup (fixupSpecOut (Buf.ofList cex5)))
      = some (fixupSpecOut (Buf.ofList cex5)) :=
  claim_C5_roundtrip (Buf.ofList cex5) (fixupSpecOut (Buf.ofList cex5))
    (by rw [apply_fixup_eq, if_pos (by decide)])

/-! ## Compressed runlist stream — `stream.CompressedRunlistStream`

The underlying volume is abstracted as `disk : Nat → Nat → List Nat`
(offset, length ↦ bytes) and the external LZNT1 decoder as
`decompress : List Nat → Option (List Nat)` (`none` = decoder exception).
Run counts are `Nat`: the `while count > 0` loop treats non-positive counts
as empty, as Python does. -/

/-- State of the `runlist` setter loop (`stream.py` lines 45-65): the
partial compression-unit block `runs`, the cluster budget `current`
remaining in it, and the finished blocks. -/
structure CuState where
  runs : List (Option Nat × Nat)
  current : Nat
  blocks : List (List (Option Nat × Nat))

/-- Inner `while count > 0` of the `runlist` setter: split one run over
compression-unit boundaries.  `full = 2^compression_unit` clusters; fuel is
the count itself (each pass consumes `min count current ≥ 1` clusters). -/
def feedRun (full : Nat) : Nat → Option Nat → Nat → CuState → CuState
  | 0, _, _, st => st
  | fuel + 1, lcn, count, st =>
    if count = 0 then st
    else
      let use := min count st.current
      let runs' := st.runs ++ [(lcn, use)]
      let lcn' := match lcn with
        | none => none
        | some l => some (l + use)
      if st.current - use = 0 then
        feedRun full fuel lcn' (count - use) ⟨[], full, st.blocks ++ [runs']⟩
      else
        feedRun full fuel lcn' (count - use) ⟨runs', st.current - use, st.blocks⟩

/-- The `_cu_blocks` list built by the `runlist` setter: the runlist split
into aligned compression-unit blocks (a trailing partial block is not
flushed). -/
def cuBlocks (cu : Nat) (runlist : List (Option Nat × Nat)) :
    List (List (Option Nat × Nat)) :=
  (runlist.foldl (fun st r => feedRun (2 ^ cu) r.2 r.1 r.2 st) ⟨[], 2 ^ cu, []⟩).blocks

/-- The per-unit scan inside `_read` (`stream.py` lines 81-97): walk the
unit's runs, marking the unit compressed on any sparse run, reading
non-sparse runs from disk, and stopping as soon as the bytes read reach
`total_remaining`. -/
def scanUnit (disk : Nat → Nat → List Nat) (blockSize : Nat) (totalRemaining : Int) :
    List (Option Nat × Nat) → List (List Nat) → Nat → Bool → List (List Nat) × Bool
  | [], buf, _, comp => (buf, comp)
  | (none, _) :: rest, buf, bufLen, _ => scanUnit disk blockSize totalRemaining rest buf bufLen true
  | (some lcn, cnt) :: rest, buf, bufLen, comp =>
    if ((bufLen + cnt * blockSize : Nat) : Int) = totalRemaining then
      (buf ++ [disk (lcn * blockSize) (cnt * blockSize)], comp)
    else
      scanUnit disk blockSize totalRemaining rest
        (buf ++ [disk (lcn * blockSize) (cnt * blockSize)]) (bufLen + cnt * blockSize) comp

/-- One iteration of `CompressedRunlistStream._read` — the classification
and reconstruction of a single compression unit (`stream.py` lines 99-111):
fully sparse → one unit of zeros; marked compressed → concatenate, pad with
64 zero bytes, decompress, truncate to the unit size (`none` = the raised
`IOError("Decompression failed")`); otherwise raw bytes. -/
def readUnit (decompress : List Nat → Option (List Nat)) (disk : Nat → Nat → List Nat)
    (blockSize cuSize : Nat) (block : List (Option Nat × Nat)) (totalRemaining : Int) :
    Option (List Nat) :=
  match scanUnit disk blockSize totalRemaining block [] 0 false with
  | (buf, comp) =>
    if buf = [] then some (List.replicate cuSize 0)
    else if comp then
      match decompress (buf.flatten ++ List.replicate 64 0) with
      | none => none
      | some out => some (out.take cuSize)
    else some buf.flatten

/-- Specification-level cut: the prefix of a unit's runs that the scan
consumes — everything up to (and including) the first non-sparse run whose
cumulative non-sparse byte count equals the remaining stream size. -/
def consumedRuns (blockSize : Nat) (tr : Int) :
    List (Option Nat × Nat) → List (Option Nat × Nat)
  | [] => []
  | (none, c) :: rest => (none, c) :: consumedRuns blockSize tr rest
  | (some l, c) :: rest =>
    if ((c * blockSize : Nat) : Int) = tr then [(some l, c)]
    else (some l, c) :: consumedRuns blockSize (tr - c * blockSize) rest

/-- Disk reads of the non-sparse runs of a block. -/
def runBytes (disk : Nat → Nat → List Nat) (blockSize : Nat)
    (block : List (Option Nat × Nat)) : List (List Nat) :=
  block.filterMap (fun r => match r.1 with
    | some l => some (disk (l * blockSize) (r.2 * blockSize))
    | none => none)

/-- Specification-level reformulation of `readUnit` over the consumed
prefix. -/
def specReadUnit (decompress : List Nat → Option (List Nat)) (disk : Nat → Nat → List Nat)
    (blockSize cuSize : Nat) (block : List (Option Nat × Nat)) (totalRemaining : Int) :
    Option (List Nat) :=
  let p := consumedRuns blockSize totalRemaining block
  let reads := runBytes disk blockSize p
  if reads = [] then some (List.replicate cuSize 0)
  else if p.any (fun r => r.1.isNone) then
    match decompress (reads.flatten ++ List.replicate 64 0) with
    | none => none
    | some out => some (out.take cuSize)
  else some reads.flatten

/-- Unit reader modelled from the claim's words, which ignore the
remaining-size cutoff: sparse alongside non-sparse always decompresses. -/
def claimReadUnit (decompress : List Nat → Option (List Nat)) (disk : Nat → Nat → List Nat)
    (blockSize cuSize : Nat) (block : List (Option Nat × Nat)) : Option (List Nat) :=
  if block.all (fun r => r.1.isNone) then some (List.replicate cuSize 0)
  else if block.any (fun r => r.1.isNone) then
    match decompress ((runBytes disk blockSize block).flatten ++ List.replicate 64 0) with
    | none => none
    | some out => some (out.take cuSize)
  else some (runBytes disk blockSize block).flatten

theorem scanUnit_eq (disk : Nat → Nat → List Nat) (blockSize : Nat) (tr : Int) :
    ∀ (block : List (Option Nat × Nat)) (buf : List (List Nat)) (bufLen : Nat) (comp : Bool),
      scanUnit disk blockSize tr block buf bufLen comp
        = (buf ++ runBytes disk blockSize (consumedRuns blockSize (tr - bufLen) block),
           comp || (consumedRuns blockSize (tr - bufLen) block).any (fun r => r.1.isNone)) := by
  intro block
  induction block with
  | nil => intro buf bufLen comp; simp [scanUnit, consumedRuns, runBytes]
  | cons r rest ih =>
    intro buf bufLen comp
    match r with
    | (none, c) =>
      rw [show scanUnit disk blockSize tr ((none, c) :: rest) buf bufLen comp
          = scanUnit disk blockSize tr rest buf bufLen true from rfl]
      rw [ih buf bufLen true]
      simp [consumedRuns, runBytes]
    | (some l, c) =>
      show (if ((bufLen + c * blockSize : Nat) : Int) = tr then _ else _) = _
      by_cases hc : ((bufLen + c * blockSize : Nat) : Int) = tr
      · rw [if_pos hc]
        have hcut : ((c * blockSize : Nat) : Int) = tr - bufLen := by push_cast at hc ⊢; omega
        simp only [consumedRuns, if_pos hcut, runBytes, List.filterMap]
        simp
      · rw [if_neg hc]
        have hcut : ¬ ((c * blockSize : Nat) : Int) = tr - bufLen := by
          intro h; apply hc; push_cast at h ⊢; omega
        rw [ih (buf ++ [disk (l * blockSize) (c * blockSize)]) (bufLen + c * blockSize) comp]
        simp only [consumedRuns, if_neg hcut]
        have htr : tr - (bufLen : Int) - (c * blockSize : Nat)
            = tr - ((bufLen + c * blockSize : Nat) : Int) := by push_cast; ring
        rw [show (tr - ((bufLen + c * blockSize : Nat) : Nat) : Int)
            = tr - (bufLen : Int) - ((c * blockSize : Nat) : Int) by push_cast; ring]
        simp [runBytes, List.filterMap]

theorem readUnit_eq_spec (decompress : List Nat → Option (List Nat))
    (disk : Nat → Nat → List Nat) (blockSize cuSize : Nat)
    (block : List (Option Nat × Nat)) (tr : Int) :
    readUnit decompress disk blockSize cuSize block tr
      = specReadUnit decompress disk blockSize cuSize block tr := by
  unfold readUnit specReadUnit
  rw [scanUnit_eq]
  simp only [Nat.cast_zero, sub_zero, Bool.false_or, List.nil_append]

/-- C3 (amended): within one compression unit, non-sparse runs are read
only until the cumulative non-sparse byte count reaches the remaining
stream size (`total_remaining`); a unit whose scanned prefix contains no
non-sparse run yields one unit of zeros; if a sparse run occurs among the
scanned runs the concatenated bytes are padded with 64 zero bytes, fed to
the LZNT1 decoder, and truncated to one unit, decoder failure mapping to
`IOError("Decompression failed")`; otherwise the raw bytes are returned —
even when a sparse run follows the cutoff (see the counterexample). -/
theorem claim_C3_compressed_unit :
    (∀ (dec : List Nat → Option (List Nat)) (disk : Nat → Nat → List Nat)
      (bs cs : Nat) (block : List (Option Nat × Nat)) (tr : Int),
        readUnit dec disk bs cs block tr = specReadUnit dec disk bs cs block tr) ∧
    (∀ (dec : List Nat → Option (List Nat)) (disk : Nat → Nat → List Nat)
      (bs cs : Nat) (block : List (Option Nat × Nat)) (tr : Int),
        (∀ r ∈ block, r.1.isNone = true) →
        readUnit dec disk bs cs block tr = some (List.replicate cs 0)) ∧
    (∀ (dec : List Nat → Option (List Nat)) (disk : Nat → Nat → List Nat)
      (bs cs : Nat) (block : List (Option Nat × Nat)) (tr : Int),
        (consumedRuns bs tr block).any (fun r => r.1.isNone) = true →
        runBytes disk bs (consumedRuns bs tr block) ≠ [] →
        dec ((runBytes disk bs (consumedRuns bs tr block)).flatten ++ List.replicate 64 0)
          = none →
        readUnit dec disk bs cs block tr = none) := by
  refine ⟨readUnit_eq_spec, ?_, ?_⟩
  · intro dec disk bs cs block tr hsp
    rw [readUnit_eq_spec]
    unfold specReadUnit
    have hrb : ∀ (tr' : Int) (bl : List (Option Nat × Nat)), (∀ r ∈ bl, r.1.isNone = true) →
        runBytes disk bs (consumedRuns bs tr' bl) = [] := by
      intro tr' bl
      induction bl generalizing tr' with
      | nil => intro _; rfl
      | cons r rest ih =>
        intro h
        match r with
        | (none, c) =>
          show runBytes disk bs ((none, c) :: consumedRuns bs tr' rest) = []
          show runBytes disk bs (consumedRuns bs tr' rest) = []
          exact ih tr' (fun q hq => h q (by simp [hq]))
        | (some l, c) =>
          have := h (some l, c) (by simp)
          simp at this
    rw [if_pos (hrb tr block hsp)]
  · intro dec disk bs cs block tr hany hne hdec
    rw [readUnit_eq_spec]
    unfold specReadUnit
    rw [if_neg hne, if_pos hany, hdec]

/-- C3 counterexample: unit `[(lcn 0, 1 cluster), (sparse, 1 cluster)]`,
cluster size 1, unit size 2, remaining stream size 1.  The scan stops after
the non-sparse run (1 byte read = 1 byte remaining), so the source returns
the raw byte and never sees the sparse run, while the claim's
classification ("sparse alongside non-sparse ⇒ decompress") returns the
decoder's output.  The block is a genuine compression unit produced by the
`runlist` setter for this runlist. -/
theorem claim_C3_counterexample :
    readUnit (fun _ => some [9, 9]) (fun _ len => List.replicate len 7) 1 2
        [(some 0, 1), (none, 1)] 1 = some [7] ∧
    claimReadUnit (fun _ => some [9, 9]) (fun _ len => List.replicate len 7) 1 2
        [(some 0, 1), (none, 1)] = some [9, 9] ∧
    (some [7] : Option (List Nat)) ≠ some [9, 9] ∧
    [(some 0, 1), (none, 1)] ∈ cuBlocks 1 [(some 0, 1), (none, 1)] := by
  refine ⟨by decide, by decide, by decide, by decide⟩

/-- Closed witness for C3 at concrete units. -/
theorem claim_C3_witness :
    readUnit (fun _ => none) (fun _ len => List.replicate len 7) 1 2 [(none, 2)] 2
        = some (List.replicate 2 0) ∧
    readUnit (fun _ => none) (fun _ len => List.replicate len 7) 1 2
        [(none, 1), (some 0, 1)] 5 = none :=
  ⟨claim_C3_compressed_unit.2.1 (fun _ => none) (fun _ len => List.replicate len 7) 1 2
      [(none, 2)] 2 (by decide),
   claim_C3_compressed_unit.2.2 (fun _ => none) (fun _ len => List.replicate len 7) 1 2
      [(none, 1), (some 0, 1)] 5 (by decide) (by decide) (by decide)⟩

/-! ## MFT record parsing and `Mft.segments` — mft.py -/

/-- The two failure classes of `MftRecord.from_bytes`: `BrokenMftError` (a
`dissect.ntfs.exceptions.Error` subclass, caught by `segments`) and the
`ValueError`/`struct.error` raised inside `apply_fixup` (not an `Error`
subclass, so not caught). -/
inductive RecErr where
  | brokenMft
  | valueError
deriving DecidableEq, Repr

/-- `MftRecord.from_bytes`: check the `FILE` signature, then apply the
fixup; the resulting record is represented by its fixed-up buffer. -/
def from_bytes (data : List Nat) : Except RecErr Buf :=
  if data.take 4 ≠ [0x46, 0x49, 0x4C, 0x45] then .error .brokenMft
  else
    match apply_fixup (Buf.ofList data) with
    | none => .error .valueError
    | some b => .ok b

/-- The record slots `segments` steps through: `size($MFT) / record_size`
slices of the `$MFT` data in ascending order (`mft.py` lines 108-113,
`get(segment)` reading `record_size` bytes at `segment * record_size`). -/
def mftSlots (data : List Nat) (recordSize : Nat) : List (List Nat) :=
  (List.range (data.length / recordSize)).map
    (fun i => (data.drop (i * recordSize)).take recordSize)

/-- Does this parse result abort `segments`?  Only the `ValueError` class
escapes its `except Error: continue` handler. -/
def isAbortErr : Except RecErr Buf → Bool
  | .error .valueError => true
  | _ => false

/-- The `for segment in range(...)` loop of `Mft.segments` with its
`try/except Error: continue` recovery: yield parsed records, skip
`BrokenMftError` slots, and let the fixup `ValueError` propagate
(aborting the iteration). -/
def segmentsGo : List (List Nat) → Except Unit (List Buf)
  | [] => .ok []
  | blk :: rest =>
    match from_bytes blk with
    | .ok r => (segmentsGo rest).map (fun l => r :: l)
    | .error .brokenMft => segmentsGo rest
    | .error .valueError => .error ()

/-- `Mft.segments` over the `$MFT` data. -/
def segments (data : List Nat) (recordSize : Nat) : Except Unit (List Buf) :=
  segmentsGo (mftSlots data recordSize)

/-- C7 (amended): `segments` steps through `size($MFT)/R` slots in
ascending order, yields every slot that parses, silently skips slots whose
`FILE` signature is invalid (`BrokenMftError`, caught by `except Error`),
but a slot whose fixup fails raises an uncaught `ValueError` that aborts
the whole iteration — fixup failures are *not* skipped. -/
theorem claim_C7_segments :
    (∀ (data : List Nat) (R : Nat), segments data R = segmentsGo (mftSlots data R) ∧
      (mftSlots data R).length = data.length / R) ∧
    (∀ blocks : List (List Nat),
      segmentsGo blocks
        = if ∀ blk ∈ blocks, isAbortErr (from_bytes blk) = false
          then Except.ok (blocks.filterMap (fun blk => (from_bytes blk).toOption))
          else Except.error ()) ∧
    (∀ (blk : List Nat) (rest : List (List Nat)),
      from_bytes blk = .error .brokenMft → segmentsGo (blk :: rest) = segmentsGo rest) ∧
    (∀ (blk : List Nat) (rest : List (List Nat)),
      from_bytes blk = .error .valueError → segmentsGo (blk :: rest) = .error ()) := by
  refine ⟨fun data R => ⟨rfl, by simp [mftSlots]⟩, ?_, ?_, ?_⟩
  · intro blocks
    induction blocks with
    | nil => simp [segmentsGo]
    | cons blk rest ih =>
      show (match from_bytes blk with
        | .ok r => (segmentsGo rest).map (fun l => r :: l)
        | .error .brokenMft => segmentsGo rest
        | .error .valueError => .error ()) = _
      cases hfb : from_bytes blk with
      | ok r =>
        rw [ih]
        by_cases hall : ∀ blk ∈ rest, isAbortErr (from_bytes blk) = false
        · rw [if_pos hall, if_pos]
          · simp [List.filterMap_cons, hfb, Except.toOption, Except.map]
          · intro b hb
            rcases List.mem_cons.mp hb with rfl | hb'
            · simp [hfb, isAbortErr]
            · exact hall b hb'
        · rw [if_neg hall, if_neg]
          · rfl
          · intro hcon
            exact hall (fun b hb => hcon b (List.mem_cons_of_mem _ hb))
      | error e =>
        cases e with
        | brokenMft =>
          rw [ih]
          by_cases hall : ∀ blk ∈ rest, isAbortErr (from_bytes blk) = false
          · rw [if_pos hall, if_pos]
            · simp [List.filterMap_cons, hfb, Except.toOption]
            · intro b hb
              rcases List.mem_cons.mp hb with rfl | hb'
              · simp [hfb, isAbortErr]
              · exact hall b hb'
          · rw [if_neg hall, if_neg]
            intro hcon
            exact hall (fun b hb => hcon b (List.mem_cons_of_mem _ hb))
        | valueError =>
          rw [if_neg]
          intro hcon
          have := hcon blk (by simp)
          rw [hfb] at this
          simp [isAbortErr] at this
  · intro blk rest h
    show (match from_bytes blk with
      | .ok r => (segmentsGo rest).map (fun l => r :: l)
      | .error .brokenMft => segmentsGo rest
      | .error .valueError => .error ()) = _
    rw [h]
  · intro blk rest h
    show (match from_bytes blk with
      | .ok r => (segmentsGo rest).map (fun l => r :: l)
      | .error .brokenMft => segmentsGo rest
      | .error .valueError => .error ()) = _
    rw [h]

/-- A 512-byte slot with a valid `FILE` signature but an odd fixup offset
(bytes 4-5 = 0x0001), so `apply_fixup` raises `ValueError`. -/
def cex7 : List Nat := [0x46, 0x49, 0x4C, 0x45, 1, 0] ++ List.replicate 506 0

/-- C7 counterexample: a slot that fails fixup is not "silently skipped";
`segments` propagates the `ValueError` and aborts instead of continuing
with the next slot (the claim predicts `ok []`). -/
theorem claim_C7_counterexample :
    from_bytes cex7 = .error .valueError ∧
    segments cex7 512 = .error () ∧
    (Except.error () : Except Unit (List Buf)) ≠ .ok [] := by
  refine ⟨rfl, rfl, by simp⟩

/-- Closed witness for C7 at concrete slots. -/
theorem claim_C7_witness :
    segmentsGo (List.replicate 512 0 :: [cex7]) = segmentsGo [cex7] ∧
    segmentsGo (cex7 :: []) = .error () :=
  ⟨claim_C7_segments.2.2.1 (List.replicate 512 0) [cex7] rfl,
   claim_C7_segments.2.2.2 cex7 [] rfl⟩

/-! ## USN journal iteration — `usnjrnl.UsnJrnl.records`

The `$J` stream is a byte list; cstruct reads of `n` bytes fail with
`EOFError` when fewer are available.  A record is modelled by the two
fields `records()` consumes: `RecordLength` and `MajorVersion` (the
filename bytes are read with `fh.read`, which cannot fail, and are not
inspected by the iterator). -/

/-- Read exactly `n` bytes at offset `o`, as cstruct does (`none` models
`EOFError`). -/
def readBytes (d : List Nat) (o n : Nat) : Option (List Nat) :=
  if ((d.drop o).take n).length = n then some ((d.drop o).take n) else none

structure UsnRec where
  recordLength : Nat
  majorVersion : Nat
deriving DecidableEq, Repr

inductive UsnErr where
  | eof
  | unsupportedVersion
  | fuelOut
deriving DecidableEq, Repr

/-- `UsnRecord.__init__`: parse the 8-byte `USN_RECORD_COMMON_HEADER`
(`RecordLength` u32, `MajorVersion` u16, `MinorVersion` u16), then re-read
the full fixed layout for the version — `USN_RECORD_V2` is 60 bytes,
`USN_RECORD_V3` 76 bytes, `USN_RECORD_V4` 64 bytes plus 16 per extent
(`NumberOfExtents` u16 at offset 60) — and fail with
`ValueError("Unsupported USN_RECORD version")` for any other major
version. -/
def parseUsnRecord (d : List Nat) (o : Nat) : Except UsnErr UsnRec :=
  match readBytes d o 8 with
  | none => .error .eof
  | some hdr =>
    if leUnsigned ((hdr.drop 4).take 2) = 2 then
      if (d.drop o).length < 60 then .error .eof
      else .ok ⟨leUnsigned (hdr.take 4), 2⟩
    else if leUnsigned ((hdr.drop 4).take 2) = 3 then
      if (d.drop o).length < 76 then .error .eof
      else .ok ⟨leUnsigned (hdr.take 4), 3⟩
    else if leUnsigned ((hdr.drop 4).take 2) = 4 then
      if (d.drop o).length < 64 then .error .eof
      else if (d.drop (o + 64)).length < 16 * leUnsigned ((d.drop (o + 60)).take 2) then
        .error .eof
      else .ok ⟨leUnsigned (hdr.take 4), 4⟩
    else .error .unsupportedVersion

/-- `offset += -(offset) & 7` after `offset += RecordLength`. -/
def alignUp8 (n : Nat) : Nat :=
  if n % 8 = 0 then n else n + (8 - n % 8)

/-- The `while True` loop of `UsnJrnl.records`, with fuel for the loop
(Python diverges when `RecordLength = 0`): skip to the next 4096-byte page
when the next four bytes are all zero, stop at `EOFError`, yield only
major-version-2 records, advance by `RecordLength` 8-byte aligned. -/
def recordsGo (d : List Nat) : Nat → Nat → Except UsnErr (List UsnRec)
  | 0, _ => .error .fuelOut
  | fuel + 1, offset =>
    if (d.drop offset).take 4 = [0, 0, 0, 0] then
      recordsGo d fuel (offset + (4096 - offset % 4096))
    else
      match parseUsnRecord d offset with
      | .error .eof => .ok []
      | .error e => .error e
      | .ok r =>
        (recordsGo d fuel (alignUp8 (offset + r.recordLength))).map
          (fun rest => if r.majorVersion = 2 then r :: rest else rest)

/-- The initial cursor skip over leading fully-sparse runs
(`usnjrnl.py` lines 39-44): add `run_size * block_size` for each leading
run whose offset is `None`, stopping at the first non-sparse run. -/
def initialOffset : List (Option Nat × Nat) → Nat → Nat
  | [], _ => 0
  | (some _, _) :: _, _ => 0
  | (none, rs) :: rest, bs => rs * bs + initialOffset rest bs

/-- `UsnJrnl.records` on a runlist-backed stream. -/
def records (runlist : List (Option Nat × Nat)) (blockSize : Nat) (d : List Nat)
    (fuel : Nat) : Except UsnErr (List UsnRec) :=
  recordsGo d fuel (initialOffset runlist blockSize)

theorem recordsGo_only_v2 (d : List Nat) :
    ∀ (fuel offset : Nat) (l : List UsnRec),
      recordsGo d fuel offset = .ok l → ∀ r ∈ l, r.majorVersion = 2 := by
  intro fuel
  induction fuel with
  | zero => intro offset l h; exact absurd h (by simp [recordsGo])
  | succ n ih =>
    intro offset l h
    rw [recordsGo] at h
    split at h
    · exact ih _ l h
    · split at h
      · rename_i heq
        injection h with h'
        subst h'
        intro r hr
        exact absurd hr (List.not_mem_nil r)
      · exact absurd h (by simp)
      · rename_i r hr
        cases hrec : recordsGo d n (alignUp8 (offset + r.recordLength)) with
        | error e => rw [hrec] at h; exact absurd h (by simp [Except.map])
        | ok rest =>
          rw [hrec] at h
          simp only [Except.map] at h
          injection h with h'
          subst h'
          intro q hq
          by_cases hv : r.majorVersion = 2
          · rw [if_pos hv] at hq
            rcases List.mem_cons.mp hq with rfl | hq'
            · exact hv
            · exact ih _ rest hrec q hq'
          · rw [if_neg hv] at hq
            exact ih _ rest hrec q hq

/-- C8: USN journal iteration.  (1) the start offset skips exactly the
leading fully-sparse runs; (2) a page whose next four bytes are zero
advances the cursor to the next 4096-byte boundary; (3) a common header
with a major version outside {2,3,4} fails the iteration with
`UnsupportedUsnVersion`; (4) a parsed record advances the cursor by
`RecordLength`, 8-byte aligned, and is yielded exactly when its major
version is 2 (v3/v4 records are parsed but not yielded); (5) every record
yielded by a completed iteration has major version 2; (6) `EOFError` on the
next header ends the iteration. -/
theorem claim_C8_usnjrnl :
    (∀ (runlist : List (Option Nat × Nat)) (bs : Nat),
      initialOffset runlist bs
        = ((runlist.takeWhile (fun r => r.1.isNone)).map (fun r => r.2 * bs)).sum) ∧
    (∀ (d : List Nat) (fuel offset : Nat), (d.drop offset).take 4 = [0, 0, 0, 0] →
      recordsGo d (fuel + 1) offset = recordsGo d fuel (offset + (4096 - offset % 4096))) ∧
    (∀ (d : List Nat) (fuel offset : Nat), ¬((d.drop offset).take 4 = [0, 0, 0, 0]) →
      parseUsnRecord d offset = .error .unsupportedVersion →
      recordsGo d (fuel + 1) offset = .error .unsupportedVersion) ∧
    (∀ (d hdr : List Nat) (offset : Nat), readBytes d offset 8 = some hdr →
      leUnsigned ((hdr.drop 4).take 2) ≠ 2 → leUnsigned ((hdr.drop 4).take 2) ≠ 3 →
      leUnsigned ((hdr.drop 4).take 2) ≠ 4 →
      parseUsnRecord d offset = .error .unsupportedVersion) ∧
    (∀ (d : List Nat) (fuel offset : Nat) (r : UsnRec),
      ¬((d.drop offset).take 4 = [0, 0, 0, 0]) → parseUsnRecord d offset = .ok r →
      recordsGo d (fuel + 1) offset
        = (recordsGo d fuel (alignUp8 (offset + r.recordLength))).map
            (fun rest => if r.majorVersion = 2 then r :: rest else rest)) ∧
    (∀ (d : List Nat) (fuel offset : Nat) (l : List UsnRec),
      recordsGo d fuel offset = .ok l → ∀ r ∈ l, r.majorVersion = 2) ∧
    (∀ (d : List Nat) (fuel offset : Nat), ¬((d.drop offset).take 4 = [0, 0, 0, 0]) →
      parseUsnRecord d offset = .error .eof → recordsGo d (fuel + 1) offset = .ok []) := by
  refine ⟨?_, ?_, ?_, ?_, ?_, recordsGo_only_v2, ?_⟩
  · intro runlist bs
    induction runlist with
    | nil => rfl
    | cons r rest ih =>
      match r with
      | (some l, c) => rfl
      | (none, c) => simp [initialOffset, List.takeWhile, ih]
  · intro d fuel offset h
    rw [recordsGo, if_pos h]
  · intro d fuel offset h4 hp
    rw [recordsGo, if_neg h4, hp]
  · intro d hdr offset hrb h2 h3 h4
    unfold parseUsnRecord
    rw [hrb]
    simp only [if_neg h2, if_neg h3, if_neg h4]
  · intro d fuel offset r h4 hp
    rw [recordsGo, if_neg h4, hp]
  · intro d fuel offset h4 hp
    rw [recordsGo, if_neg h4, hp]

/-- Closed witness for C8 at concrete streams.  The 8-byte header
`60 00 00 00 05 00 00 00` has major version 5 → `UnsupportedUsnVersion`;
an empty stream ends immediately with `ok []`. -/
theorem claim_C8_witness :
    recordsGo ([0x60, 0, 0, 0, 5, 0, 0, 0] ++ List.replicate 88 1) 1 0
      = .error .unsupportedVersion ∧
    recordsGo [1, 2, 3] 1 0 = .ok [] ∧
    initialOffset [(none, 3), (some 7, 2), (none, 5)] 512
      = (([(none, (3:Nat)), (some 7, 2), (none, 5)].takeWhile
          (fun r => r.1.isNone)).map (fun r => r.2 * 512)).sum :=
  ⟨claim_C8_usnjrnl.2.2.1 ([0x60, 0, 0, 0, 5, 0, 0, 0] ++ List.replicate 88 1) 0 0
      (by decide) rfl,
   claim_C8_usnjrnl.2.2.2.2.2.2 [1, 2, 3] 0 0 (by decide) rfl,
   claim_C8_usnjrnl.1 [(none, 3), (some 7, 2), (none, 5)] 512⟩

/-! ## Index engine — index.py

Entries abstract `_INDEX_ENTRY` by the accessors the engine uses: the
comparison key (`IndexEntry.key` under the index's collation), `is_node` /
`node_vcn` (collapsed into `vcn : Option Nat`), and `is_end`.  The
collation comparator is modelled over a linearly ordered key type, matching
`_cmp_filename` (on uppercased strings) and `_cmp_ulong` (on u32 keys):
`Less` when the query is below the entry's key, `Greater` when above.  An
index is its root node plus the VCN-indexed list of index buffers (each
already fixup-checked and parsed — `search` propagates buffer errors, and
well-formedness below makes all reachable buffers parse). -/

inductive Match where
  | Less
  | Equal
  | Greater
deriving DecidableEq, Repr

structure Entry (α : Type) where
  key : α
  vcn : Option Nat
  isEnd : Bool
deriving DecidableEq, Repr

/-- Default entry: models Python's `IndexError` on an out-of-range
`entries[i]`; never reached on the inputs we reason about. -/
def dfltE {α : Type} [Inhabited α] : Entry α := ⟨default, none, true⟩

/-- The collation comparator shape shared by `_cmp_filename` and
`_cmp_ulong`: compare the query `v` against the entry's key. -/
def cmpM {α : Type} [LinearOrder α] (e : Entry α) (v : α) : Match :=
  if v < e.key then .Less else if v = e.key then .Equal else .Greater

/-- `index._bsearch`'s `while min_idx != max_idx` loop.  The indices
satisfy `min ≤ max` on every reachable call, so `<` coincides with
Python's `!=`. -/
def bsearchLoop {α : Type} [LinearOrder α] [Inhabited α]
    (entries : List (Entry α)) (k : α) (minIdx maxIdx : Nat) : Entry α :=
  if minIdx < maxIdx then
    if (entries.getD (minIdx + (maxIdx - minIdx) / 2) dfltE).isEnd = false ∧
        cmpM (entries.getD (minIdx + (maxIdx - minIdx) / 2) dfltE) k = .Greater then
      bsearchLoop entries k (minIdx + (maxIdx - minIdx) / 2 + 1) maxIdx
    else if cmpM (entries.getD (minIdx + (maxIdx - minIdx) / 2) dfltE) k = .Equal then
      entries.getD (minIdx + (maxIdx - minIdx) / 2) dfltE
    else bsearchLoop entries k minIdx (minIdx + (maxIdx - minIdx) / 2)
  else entries.getD minIdx dfltE
  termination_by maxIdx - minIdx
  decreasing_by
  · omega
  · omega

/-- `index._bsearch`. -/
def bsearch {α : Type} [LinearOrder α] [Inhabited α]
    (entries : List (Entry α)) (k : α) : Entry α :=
  bsearchLoop entries k 0 (entries.length - 1)

structure PyIndex (α : Type) where
  root : List (Entry α)
  buffers : List (List (Entry α))

inductive SErr where
  | notFound
  | eof
  | fuelOut
deriving DecidableEq, Repr

/-- The `while True` descent loop of `Index.search` (`index.py` lines
112-117): binary-search the node; break when the chosen entry is not an
interior node, or is a non-END exact hit; otherwise descend to the child
VCN's buffer.  `eof` models the buffer-read errors that `search` does not
catch; fuel guards against malformed cyclic VCNs. -/
def searchLoop {α : Type} [LinearOrder α] [Inhabited α]
    (buffers : List (List (Entry α))) (k : α) :
    Nat → List (Entry α) → Except SErr (Entry α)
  | 0, _ => .error .fuelOut
  | fuel + 1, entries =>
    if (bsearch entries k).vcn.isSome = false ∨
        ((bsearch entries k).isEnd = false ∧ cmpM (bsearch entries k) k = .Equal) then
      .ok (bsearch entries k)
    else
      match (bsearch entries k).vcn with
      | none => .ok (bsearch entries k)
      | some v =>
        match buffers[v]? with
        | none => .error .eof
        | some child => searchLoop buffers k fuel child

/-- `Index.search(value, exact)` (without the FILE_NAME upper-casing of the
query, which is the identity under the abstract ordering): run the descent
from the root node's entries, then fail with `KeyError` when an exact
match was requested but the chosen entry is an END entry or compares
unequal. -/
def searchIdx {α : Type} [LinearOrder α] [Inhabited α]
    (idx : PyIndex α) (k : α) (exact : Bool) (fuel : Nat) : Except SErr (Entry α) :=
  match searchLoop idx.buffers k fuel idx.root with
  | .error e => .error e
  | .ok e =>
    if exact = true ∧ (e.isEnd = true ∨ cmpM e k ≠ .Equal) then .error .notFound
    else .ok e

/-- `Index.entries()`: the root's entries up to its END entry, then each
index buffer's entries up to its END entry, for VCN 0, 1, 2, … until the
stream ends. -/
def entriesAll {α : Type} (idx : PyIndex α) : List (Entry α) :=
  idx.root.takeWhile (fun e => !e.isEnd) ++
    (idx.buffers.map (fun b => b.takeWhile (fun e => !e.isEnd))).flatten

/-- `lo < k` for an optional strict lower bound. -/
def ltLoB {α : Type} [LinearOrder α] (lo : Option α) (k : α) : Bool :=
  match lo with
  | none => true
  | some l => decide (l < k)

/-- `k < hi` for an optional strict upper bound. -/
def ltHiB {α : Type} [LinearOrder α] (k : α) (hi : Option α) : Bool :=
  match hi with
  | none => true
  | some h => decide (k < h)

/-- Well-formedness of a node (entry list) of height `h` whose keys must
lie strictly between `lo` and `hi`: the list is a run of non-END entries
with strictly increasing keys followed by a single END entry; every child
VCN refers to an existing buffer whose subtree is well-formed between the
adjacent keys.  This is the B-tree shape `search` relies on. -/
def wfNode {α : Type} [LinearOrder α] (buffers : List (List (Entry α))) :
    Nat → Option α → Option α → List (Entry α) → Bool
  | 0, _, _, _ => false
  | _ + 1, _, _, [] => false
  | h + 1, lo, hi, e :: rest =>
    if e.isEnd then
      rest.isEmpty &&
        (match e.vcn with
         | none => true
         | some v =>
           match buffers[v]? with
           | none => false
           | some child => wfNode buffers h lo hi child)
    else
      ltLoB lo e.key && ltHiB e.key hi &&
        (match e.vcn with
         | none => true
         | some v =>
           match buffers[v]? with
           | none => false
           | some child => wfNode buffers h lo (some e.key) child) &&
        wfNode buffers (h + 1) (some e.key) hi rest
  termination_by h _ _ es => (h, es.length)

/-- All keys in the subtree rooted at a node (regular keys plus children's
subtrees, in traversal order). -/
def subKeys {α : Type} (buffers : List (List (Entry α))) :
    Nat → List (Entry α) → List α
  | 0, _ => []
  | _ + 1, [] => []
  | h + 1, e :: rest =>
    (match e.vcn with
     | none => []
     | some v =>
       match buffers[v]? with
       | none => []
       | some child => subKeys buffers h child) ++
      (if e.isEnd then [] else e.key :: subKeys buffers (h + 1) rest)
  termination_by h es => (h, es.length)

/-- All buffer VCNs referenced in the subtree rooted at a node. -/
def usedVcns {α : Type} (buffers : List (List (Entry α))) :
    Nat → List (Entry α) → List Nat
  | 0, _ => []
  | _ + 1, [] => []
  | h + 1, e :: rest =>
    (match e.vcn with
     | none => []
     | some v =>
       v :: (match buffers[v]? with
         | none => []
         | some child => usedVcns buffers h child)) ++
      (if e.isEnd then [] else usedVcns buffers (h + 1) rest)
  termination_by h es => (h, es.length)

/-- A well-formed index of height `h`: the root is a well-formed unbounded
node and the tree's child VCNs are exactly the buffers 0, …, n-1, each
used once (NTFS index allocations are the tree's nodes). -/
def wfIndex {α : Type} [LinearOrder α] (idx : PyIndex α) (h : Nat) : Prop :=
  wfNode idx.buffers h none none idx.root = true ∧
    (usedVcns idx.buffers h idx.root).Perm (List.range idx.buffers.length)

theorem wfNode_cons {α : Type} [LinearOrder α] (buffers : List (List (Entry α)))
    (h : Nat) (lo hi : Option α) (e : Entry α) (rest : List (Entry α))
    (hwf : wfNode buffers (h + 1) lo hi (e :: rest) = true) :
    (e.isEnd = true ∧ rest = [] ∧
      (∀ v, e.vcn = some v → ∃ child, buffers[v]? = some child ∧
        wfNode buffers h lo hi child = true)) ∨
    (e.isEnd = false ∧ ltLoB lo e.key = true ∧ ltHiB e.key hi = true ∧
      (∀ v, e.vcn = some v → ∃ child, buffers[v]? = some child ∧
        wfNode buffers h lo (some e.key) child = true) ∧
      wfNode buffers (h + 1) (some e.key) hi rest = true) := by
  simp only [wfNode] at hwf
  by_cases he : e.isEnd = true
  · left
    rw [if_pos he] at hwf
    rw [Bool.and_eq_true] at hwf
    refine ⟨he, List.isEmpty_iff.mp hwf.1, ?_⟩
    intro v hv
    have h2 := hwf.2
    rw [hv] at h2
    dsimp only at h2
    cases hbuf : buffers[v]? with
    | none => rw [hbuf] at h2; exact absurd h2 (by simp)
    | some child => rw [hbuf] at h2; exact ⟨child, rfl, h2⟩
  · right
    rw [if_neg he] at hwf
    simp only [Bool.and_eq_true] at hwf
    obtain ⟨⟨⟨hlo, hhi⟩, hchild⟩, hrest⟩ := hwf
    refine ⟨by simpa using he, hlo, hhi, ?_, hrest⟩
    intro v hv
    rw [hv] at hchild
    dsimp only at hchild
    cases hbuf : buffers[v]? with
    | none => rw [hbuf] at hchild; exact absurd hchild (by simp)
    | some child => rw [hbuf] at hchild; exact ⟨child, rfl, hchild⟩

theorem wf_ne {α : Type} [LinearOrder α] (buffers : List (List (Entry α)))
    (h : Nat) (lo hi : Option α) (es : List (Entry α))
    (hwf : wfNode buffers h lo hi es = true) : 0 < es.length := by
  match h, es with
  | 0, _ => exact absurd hwf (by simp [wfNode])
  | _ + 1, [] => exact absurd hwf (by simp [wfNode])
  | _ + 1, e :: rest => simp

theorem wf_regular {α : Type} [LinearOrder α] [Inhabited α]
    (buffers : List (List (Entry α))) (h : Nat) :
    ∀ (es : List (Entry α)) (lo hi : Option α),
      wfNode buffers (h + 1) lo hi es = true →
      ∀ i, i + 1 < es.length → (es.getD i dfltE).isEnd = false := by
  intro es
  induction es with
  | nil => intro lo hi hwf; exact absurd hwf (by simp [wfNode])
  | cons e rest ih =>
    intro lo hi hwf i hi1
    rcases wfNode_cons buffers h lo hi e rest hwf with ⟨_, rfl, _⟩ | ⟨he, _, _, _, hrest⟩
    · simp at hi1
    · match i with
      | 0 => exact he
      | i + 1 =>
        simp only [List.getD_cons_succ]
        exact ih (some e.key) hi hrest i (by simpa using hi1)

theorem wf_last {α : Type} [LinearOrder α] [Inhabited α]
    (buffers : List (List (Entry α))) (h : Nat) :
    ∀ (es : List (Entry α)) (lo hi : Option α),
      wfNode buffers (h + 1) lo hi es = true →
      (es.getD (es.length - 1) dfltE).isEnd = true := by
  intro es
  induction es with
  | nil => intro lo hi hwf; exact absurd hwf (by simp [wfNode])
  | cons e rest ih =>
    intro lo hi hwf
    rcases wfNode_cons buffers h lo hi e rest hwf with ⟨he, rfl, _⟩ | ⟨_, _, _, _, hrest⟩
    · exact he
    · have hne : 0 < rest.length := wf_ne buffers (h + 1) (some e.key) hi rest hrest
      have : (e :: rest).length - 1 = (rest.length - 1) + 1 := by simp; omega
      rw [this, List.getD_cons_succ]
      exact ih (some e.key) hi hrest

theorem wf_bounds {α : Type} [LinearOrder α] [Inhabited α]
    (buffers : List (List (Entry α))) (h : Nat) :
    ∀ (es : List (Entry α)) (lo hi : Option α),
      wfNode buffers (h + 1) lo hi es = true →
      ∀ i, i + 1 < es.length →
        ltLoB lo (es.getD i dfltE).key = true ∧ ltHiB (es.getD i dfltE).key hi = true := by
  intro es
  induction es with
  | nil => intro lo hi hwf; exact absurd hwf (by simp [wfNode])
  | cons e rest ih =>
    intro lo hi hwf i hi1
    rcases wfNode_cons buffers h lo hi e rest hwf with ⟨_, rfl, _⟩ | ⟨_, hlo, hhi, _, hrest⟩
    · simp at hi1
    · match i with
      | 0 => exact ⟨hlo, hhi⟩
      | i + 1 =>
        simp only [List.getD_cons_succ]
        have hres := ih (some e.key) hi hrest i (by simpa using hi1)
        refine ⟨?_, hres.2⟩
        match lo with
        | none => rfl
        | some l =>
          have h1 : l < e.key := by
            have := hlo
            simp only [ltLoB, decide_eq_true_eq] at this
            exact this
          have h2 : e.key < (rest.getD i dfltE).key := by
            have := hres.1
            simp only [ltLoB, decide_eq_true_eq] at this
            exact this
          simp only [ltLoB, decide_eq_true_eq]
          exact lt_trans h1 h2

theorem wf_sorted {α : Type} [LinearOrder α] [Inhabited α]
    (buffers : List (List (Entry α))) (h : Nat) :
    ∀ (es : List (Entry α)) (lo hi : Option α),
      wfNode buffers (h + 1) lo hi es = true →
      ∀ i j, i < j → j + 1 < es.length →
        (es.getD i dfltE).key < (es.getD j dfltE).key := by
  intro es
  induction es with
  | nil => intro lo hi hwf; exact absurd hwf (by simp [wfNode])
  | cons e rest ih =>
    intro lo hi hwf i j hij hj1
    rcases wfNode_cons buffers h lo hi e rest hwf with ⟨_, rfl, _⟩ | ⟨_, _, _, _, hrest⟩
    · simp at hj1
    · match j, i with
      | j + 1, 0 =>
        simp only [List.getD_cons_zero, List.getD_cons_succ]
        have := (wf_bounds buffers h rest (some e.key) hi hrest j (by simpa using hj1)).1
        simp only [ltLoB, decide_eq_true_eq] at this
        exact this
      | j + 1, i + 1 =>
        simp only [List.getD_cons_succ]
        exact ih (some e.key) hi hrest i j (by omega) (by simpa using hj1)

theorem wf_children {α : Type} [LinearOrder α] [Inhabited α]
    (buffers : List (List (Entry α))) (h : Nat) :
    ∀ (es : List (Entry α)) (lo hi : Option α),
      wfNode buffers (h + 1) lo hi es = true →
      ∀ i v, i < es.length → (es.getD i dfltE).vcn = some v →
        ∃ child, buffers[v]? = some child ∧
          wfNode buffers h
            (if i = 0 then lo else some ((es.getD (i - 1) dfltE).key))
            (if i + 1 = es.length then hi else some ((es.getD i dfltE).key)) child
            = true := by
  intro es
  induction es with
  | nil => intro lo hi hwf; exact absurd hwf (by simp [wfNode])
  | cons e rest ih =>
    intro lo hi hwf i v hilen hvcn
    rcases wfNode_cons buffers h lo hi e rest hwf with
      ⟨he, rfl, hch⟩ | ⟨he, hlo, hhi, hch, hrest⟩
    · match i, hilen with
      | 0, _ =>
        simp only [List.getD_cons_zero] at hvcn
        obtain ⟨child, hbuf, hwfc⟩ := hch v hvcn
        exact ⟨child, hbuf, by simpa using hwfc⟩
    · match i with
      | 0 =>
        simp only [List.getD_cons_zero] at hvcn
        obtain ⟨child, hbuf, hwfc⟩ := hch v hvcn
        refine ⟨child, hbuf, ?_⟩
        have hne : 0 < rest.length := wf_ne buffers (h + 1) (some e.key) hi rest hrest
        rw [if_pos rfl,
          if_neg (show ¬(0 + 1 = (e :: rest).length) by simp only [List.length_cons]; omega)]
        simpa using hwfc
      | i + 1 =>
        simp only [List.getD_cons_succ] at hvcn
        obtain ⟨child, hbuf, hwfc⟩ :=
          ih (some e.key) hi hrest i v (by simpa using hilen) hvcn
        refine ⟨child, hbuf, ?_⟩
        have e1 : (if i + 1 = 0 then lo
              else some (((e :: rest).getD (i + 1 - 1) dfltE).key))
            = (if i = 0 then some e.key else some ((rest.getD (i - 1) dfltE).key)) := by
          rw [if_neg (by omega)]
          match i with
          | 0 => simp
          | m + 1 =>
            rw [if_neg (by omega)]
            simp
        have e2 : (if i + 1 + 1 = (e :: rest).length then hi
              else some (((e :: rest).getD (i + 1) dfltE).key))
            = (if i + 1 = rest.length then hi else some ((rest.getD i dfltE).key)) := by
          simp only [List.length_cons, List.getD_cons_succ]
          by_cases hc : i + 1 = rest.length
          · rw [if_pos (by omega), if_pos hc]
          · rw [if_neg (by omega), if_neg hc]
        rw [e1, e2]
        exact hwfc

theorem subKeys_bounds {α : Type} [LinearOrder α] (buffers : List (List (Entry α))) :
    ∀ (h : Nat) (es : List (Entry α)) (lo hi : Option α),
      wfNode buffers h lo hi es = true →
      ∀ x ∈ subKeys buffers h es, ltLoB lo x = true ∧ ltHiB x hi = true := by
  intro h
  induction h with
  | zero => intro es lo hi hwf; exact absurd hwf (by simp [wfNode])
  | succ h ihh =>
    intro es
    induction es with
    | nil => intro lo hi hwf; exact absurd hwf (by simp [wfNode])
    | cons e rest ihe =>
      intro lo hi hwf x hx
      have hsub : subKeys buffers (h + 1) (e :: rest)
          = (match e.vcn with
             | none => []
             | some v =>
               match buffers[v]? with
               | none => []
               | some child => subKeys buffers h child) ++
            (if e.isEnd then [] else e.key :: subKeys buffers (h + 1) rest) := by
        simp only [subKeys]
      rw [hsub] at hx
      rcases List.mem_append.mp hx with hxc | hxr
      · -- x comes from e's child subtree
        rcases wfNode_cons buffers h lo hi e rest hwf with
          ⟨he, _, hch⟩ | ⟨he, hlo, hhi, hch, hrest⟩
        · cases hv : e.vcn with
          | none => rw [hv] at hxc; simp at hxc
          | some v =>
            rw [hv] at hxc
            dsimp only at hxc
            obtain ⟨child, hbuf, hwfc⟩ := hch v hv
            rw [hbuf] at hxc
            exact ihh child lo hi hwfc x hxc
        · cases hv : e.vcn with
          | none => rw [hv] at hxc; simp at hxc
          | some v =>
            rw [hv] at hxc
            dsimp only at hxc
            obtain ⟨child, hbuf, hwfc⟩ := hch v hv
            rw [hbuf] at hxc
            have hb := ihh child lo (some e.key) hwfc x hxc
            refine ⟨hb.1, ?_⟩
            have hxk : x < e.key := by
              have := hb.2
              simp only [ltHiB, decide_eq_true_eq] at this
              exact this
            match hi with
            | none => rfl
            | some hh =>
              have : e.key < hh := by
                simpa only [ltHiB, decide_eq_true_eq] using hhi
              simp only [ltHiB, decide_eq_true_eq]
              exact lt_trans hxk this
      · rcases wfNode_cons buffers h lo hi e rest hwf with
          ⟨he, _, hch⟩ | ⟨he, hlo, hhi, hch, hrest⟩
        · rw [if_pos he] at hxr
          simp at hxr
        · rw [if_neg (by simp [he])] at hxr
          rcases List.mem_cons.mp hxr with rfl | hxr'
          · exact ⟨hlo, hhi⟩
          · have hb := ihe (some e.key) hi hrest x hxr'
            refine ⟨?_, hb.2⟩
            have hxk : e.key < x := by
              simpa only [ltLoB, decide_eq_true_eq] using hb.1
            match lo with
            | none => rfl
            | some l =>
              have : l < e.key := by
                simpa only [ltLoB, decide_eq_true_eq] using hlo
              simp only [ltLoB, decide_eq_true_eq]
              exact lt_trans this hxk

theorem subKeys_mem {α : Type} [LinearOrder α] [Inhabited α]
    (buffers : List (List (Entry α))) (h : Nat) :
    ∀ (es : List (Entry α)) (lo hi : Option α),
      wfNode buffers (h + 1) lo hi es = true →
      ∀ x : α,
        (x ∈ subKeys buffers (h + 1) es ↔
          (∃ i, i + 1 < es.length ∧ (es.getD i dfltE).key = x) ∨
          (∃ i v child, i < es.length ∧ (es.getD i dfltE).vcn = some v ∧
            buffers[v]? = some child ∧ x ∈ subKeys buffers h child)) := by
  intro es
  induction es with
  | nil => intro lo hi hwf; exact absurd hwf (by simp [wfNode])
  | cons e rest ih =>
    intro lo hi hwf x
    have hsub : subKeys buffers (h + 1) (e :: rest)
        = (match e.vcn with
           | none => []
           | some v =>
             match buffers[v]? with
             | none => []
             | some child => subKeys buffers h child) ++
          (if e.isEnd then [] else e.key :: subKeys buffers (h + 1) rest) := by
      simp only [subKeys]
    rcases wfNode_cons buffers h lo hi e rest hwf with
      ⟨he, rfl, hch⟩ | ⟨he, hlo, hhi, hch, hrest⟩
    · rw [hsub, if_pos he]
      constructor
      · intro hx
        rcases List.mem_append.mp hx with hxc | hxc
        · cases hv : e.vcn with
          | none => rw [hv] at hxc; simp at hxc
          | some v =>
            rw [hv] at hxc
            dsimp only at hxc
            obtain ⟨child, hbuf, hwfc⟩ := hch v hv
            rw [hbuf] at hxc
            exact Or.inr ⟨0, v, child, by simp, by simpa using hv, hbuf, hxc⟩
        · simp at hxc
      · intro hx
        rcases hx with ⟨i, hi1, _⟩ | ⟨i, v, child, hilen, hvcn, hbuf, hmem⟩
        · simp at hi1
        · have hi0 : i = 0 := by simp at hilen; omega
          subst hi0
          simp only [List.getD_cons_zero] at hvcn
          rw [List.mem_append]
          left
          rw [hvcn]
          dsimp only
          rw [hbuf]
          exact hmem
    · have hne : 0 < rest.length := wf_ne buffers (h + 1) (some e.key) hi rest hrest
      rw [hsub, if_neg (by simp [he])]
      constructor
      · intro hx
        rcases List.mem_append.mp hx with hxc | hxc
        · cases hv : e.vcn with
          | none => rw [hv] at hxc; simp at hxc
          | some v =>
            rw [hv] at hxc
            dsimp only at hxc
            obtain ⟨child, hbuf, hwfc⟩ := hch v hv
            rw [hbuf] at hxc
            exact Or.inr ⟨0, v, child, by simp, by simpa using hv, hbuf, hxc⟩
        · rcases List.mem_cons.mp hxc with rfl | hxr
          · exact Or.inl ⟨0, by simp only [List.length_cons]; omega, by simp⟩
          · rcases (ih (some e.key) hi hrest x).mp hxr with
              ⟨i, hi1, hkey⟩ | ⟨i, v, child, hilen, hvcn, hbuf, hmem⟩
            · exact Or.inl ⟨i + 1, by simp only [List.length_cons]; omega,
                by simpa using hkey⟩
            · exact Or.inr ⟨i + 1, v, child, by simp only [List.length_cons]; omega,
                by simpa using hvcn, hbuf, hmem⟩
      · intro hx
        rw [List.mem_append]
        rcases hx with ⟨i, hi1, hkey⟩ | ⟨i, v, child, hilen, hvcn, hbuf, hmem⟩
        · match i with
          | 0 =>
            right
            simp only [List.getD_cons_zero] at hkey
            rw [← hkey]
            exact List.mem_cons_self _ _
          | i + 1 =>
            right
            simp only [List.getD_cons_succ] at hkey
            refine List.mem_cons_of_mem _ ?_
            exact (ih (some e.key) hi hrest x).mpr
              (Or.inl ⟨i, by simp only [List.length_cons] at hi1; omega, hkey⟩)
        · match i with
          | 0 =>
            left
            simp only [List.getD_cons_zero] at hvcn
            rw [hvcn]
            dsimp only
            rw [hbuf]
            exact hmem
          | i + 1 =>
            right
            simp only [List.getD_cons_succ] at hvcn
            refine List.mem_cons_of_mem _ ?_
            exact (ih (some e.key) hi hrest x).mpr
              (Or.inr ⟨i, v, child, by simp only [List.length_cons] at hilen; omega,
                hvcn, hbuf, hmem⟩)

/-- "The first entry whose key is ≥ the query, END entries comparing as
greater than any key" — the predicate located by the per-node binary
search. -/
def leP {α : Type} [LinearOrder α] (k : α) (e : Entry α) : Bool :=
  e.isEnd || decide (k ≤ e.key)

theorem cmpM_eq_greater {α : Type} [LinearOrder α] (e : Entry α) (k : α) :
    cmpM e k = .Greater ↔ e.key < k := by
  unfold cmpM
  split_ifs with h1 h2
  · exact iff_of_false (by simp) (fun hc => absurd h1 (lt_asymm hc))
  · exact iff_of_false (by simp) (by rw [h2]; exact lt_irrefl _)
  · exact iff_of_true rfl (lt_of_le_of_ne (le_of_not_lt h1) (fun hc => h2 hc.symm))

theorem cmpM_eq_equal {α : Type} [LinearOrder α] (e : Entry α) (k : α) :
    cmpM e k = .Equal ↔ k = e.key := by
  unfold cmpM
  split_ifs with h1 h2
  · exact iff_of_false (by simp) (fun hc => absurd h1 (by rw [hc]; exact lt_irrefl _))
  · exact iff_of_true rfl h2
  · exact iff_of_false (by simp) h2

theorem cmpM_eq_less {α : Type} [LinearOrder α] (e : Entry α) (k : α) :
    cmpM e k = .Less ↔ k < e.key := by
  unfold cmpM
  split_ifs with h1 h2
  · exact iff_of_true rfl h1
  · exact iff_of_false (by simp) h1
  · exact iff_of_false (by simp) h1

theorem bsearchLoop_correct {α : Type} [LinearOrder α] [Inhabited α]
    (entries : List (Entry α)) (k : α)
    (hreg : ∀ i, i + 1 < entries.length → (entries.getD i dfltE).isEnd = false)
    (hsort : ∀ i j, i < j → j + 1 < entries.length →
      (entries.getD i dfltE).key < (entries.getD j dfltE).key) :
    ∀ (gas minIdx maxIdx : Nat), maxIdx - minIdx ≤ gas →
      minIdx ≤ maxIdx → maxIdx < entries.length →
      (∀ i, i < minIdx → leP k (entries.getD i dfltE) = false) →
      leP k (entries.getD maxIdx dfltE) = true →
      bsearchLoop entries k minIdx maxIdx
        = entries.getD (entries.findIdx (leP k)) dfltE := by
  have hfind : ∀ (minIdx maxIdx : Nat), maxIdx < entries.length →
      (∀ i, i < minIdx → leP k (entries.getD i dfltE) = false) →
      leP k (entries.getD maxIdx dfltE) = true →
      minIdx ≤ entries.findIdx (leP k) ∧ entries.findIdx (leP k) ≤ maxIdx := by
    intro minIdx maxIdx hlen hmin hmax
    have hjlt : entries.findIdx (leP k) < entries.length := by
      apply List.findIdx_lt_length_of_exists
      exact ⟨entries.getD maxIdx dfltE, by
        rw [List.getD_eq_getElem entries dfltE hlen]; exact List.getElem_mem hlen, hmax⟩
    have hPj : leP k (entries.getD (entries.findIdx (leP k)) dfltE) = true := by
      rw [List.getD_eq_getElem entries dfltE hjlt]
      exact List.findIdx_getElem
    constructor
    · by_contra hc
      have := hmin (entries.findIdx (leP k)) (by omega)
      rw [this] at hPj
      exact absurd hPj (by simp)
    · by_contra hc
      have := List.not_of_lt_findIdx (show maxIdx < entries.findIdx (leP k) by omega)
      rw [← List.getD_eq_getElem entries dfltE hlen] at this
      rw [hmax] at this
      exact absurd this (by simp)
  intro gas
  induction gas with
  | zero =>
    intro minIdx maxIdx hgas hmm hlen hmin hmax
    have heq : minIdx = maxIdx := by omega
    subst heq
    rw [bsearchLoop, if_neg (by omega)]
    obtain ⟨h1, h2⟩ := hfind minIdx minIdx hlen hmin hmax
    have : entries.findIdx (leP k) = minIdx := by omega
    rw [this]
  | succ gas ih =>
    intro minIdx maxIdx hgas hmm hlen hmin hmax
    by_cases hlt : minIdx < maxIdx
    · rw [bsearchLoop, if_pos hlt]
      have htlt : minIdx + (maxIdx - minIdx) / 2 < maxIdx := by omega
      have htge : minIdx ≤ minIdx + (maxIdx - minIdx) / 2 := by omega
      have htlen : minIdx + (maxIdx - minIdx) / 2 + 1 < entries.length := by omega
      have hteEnd : (entries.getD (minIdx + (maxIdx - minIdx) / 2) dfltE).isEnd = false :=
        hreg _ htlen
      by_cases hgt : cmpM (entries.getD (minIdx + (maxIdx - minIdx) / 2) dfltE) k = .Greater
      · rw [if_pos ⟨hteEnd, hgt⟩]
        apply ih (minIdx + (maxIdx - minIdx) / 2 + 1) maxIdx (by omega) (by omega) hlen ?_ hmax
        intro i hi1
        by_cases hiv : i < minIdx
        · exact hmin i hiv
        · have hik : (entries.getD i dfltE).key < k := by
            rcases Nat.lt_or_ge i (minIdx + (maxIdx - minIdx) / 2) with hi2 | hi2
            · exact lt_trans (hsort i _ hi2 htlen) ((cmpM_eq_greater _ _).mp hgt)
            · have : i = minIdx + (maxIdx - minIdx) / 2 := by omega
              rw [this]
              exact (cmpM_eq_greater _ _).mp hgt
          have hiEnd : (entries.getD i dfltE).isEnd = false := hreg i (by omega)
          simp only [leP, hiEnd, Bool.false_or, decide_eq_false_iff_not]
          exact not_le_of_lt hik
      · rw [if_neg (fun hc => hgt hc.2)]
        by_cases heqc : cmpM (entries.getD (minIdx + (maxIdx - minIdx) / 2) dfltE) k = .Equal
        · rw [if_pos heqc]
          have hkey : k = (entries.getD (minIdx + (maxIdx - minIdx) / 2) dfltE).key :=
            (cmpM_eq_equal _ _).mp heqc
          have hPt : leP k (entries.getD (minIdx + (maxIdx - minIdx) / 2) dfltE) = true := by
            simp only [leP, Bool.or_eq_true, decide_eq_true_eq]
            exact Or.inr (le_of_eq hkey)
          have hminT : ∀ i, i < minIdx + (maxIdx - minIdx) / 2 →
              leP k (entries.getD i dfltE) = false := by
            intro i hi1
            by_cases hiv : i < minIdx
            · exact hmin i hiv
            · have hik : (entries.getD i dfltE).key < k := by
                rw [hkey]
                exact hsort i _ (by omega) htlen
              have hiEnd : (entries.getD i dfltE).isEnd = false := hreg i (by omega)
              simp only [leP, hiEnd, Bool.false_or, decide_eq_false_iff_not]
              exact not_le_of_lt hik
          obtain ⟨h1, h2⟩ := hfind (minIdx + (maxIdx - minIdx) / 2)
            (minIdx + (maxIdx - minIdx) / 2) (by omega) hminT hPt
          have : entries.findIdx (leP k) = minIdx + (maxIdx - minIdx) / 2 := by omega
          rw [this]
        · have hless : cmpM (entries.getD (minIdx + (maxIdx - minIdx) / 2) dfltE) k
              = .Less := by
            cases hc : cmpM (entries.getD (minIdx + (maxIdx - minIdx) / 2) dfltE) k
            · rfl
            · exact absurd hc heqc
            · exact absurd hc hgt
          rw [if_neg heqc]
          apply ih minIdx (minIdx + (maxIdx - minIdx) / 2) (by omega) (by omega)
            (by omega) hmin ?_
          simp only [leP, Bool.or_eq_true, decide_eq_true_eq]
          exact Or.inr (le_of_lt ((cmpM_eq_less _ _).mp hless))
    · have heq : minIdx = maxIdx := by omega
      subst heq
      rw [bsearchLoop, if_neg (by omega)]
      obtain ⟨h1, h2⟩ := hfind minIdx minIdx hlen hmin hmax
      have : entries.findIdx (leP k) = minIdx := by omega
      rw [this]

/-- `_bsearch` returns the first entry whose key is ≥ the query, END
entries comparing as greater, on any well-formed node. -/
theorem bsearch_correct {α : Type} [LinearOrder α] [Inhabited α]
    (buffers : List (List (Entry α))) (h : Nat) (lo hi : Option α)
    (es : List (Entry α)) (k : α) (hwf : wfNode buffers (h + 1) lo hi es = true) :
    bsearch es k = es.getD (es.findIdx (leP k)) dfltE := by
  have hne := wf_ne buffers (h + 1) lo hi es hwf
  have hlast := wf_last buffers h es lo hi hwf
  apply bsearchLoop_correct es k (wf_regular buffers h es lo hi hwf)
    (wf_sorted buffers h es lo hi hwf) (es.length - 1) 0 (es.length - 1)
    le_rfl (by omega) (by omega) (by omega)
  simp only [leP, hlast, Bool.true_or]

theorem searchLoop_correct {α : Type} [LinearOrder α] [Inhabited α]
    (buffers : List (List (Entry α))) (k : α) :
    ∀ (h : Nat) (es : List (Entry α)) (lo hi : Option α) (fuel : Nat),
      wfNode buffers h lo hi es = true → h ≤ fuel →
      ltLoB lo k = true → ltHiB k hi = true →
      ((k ∈ subKeys buffers h es →
        ∃ e, searchLoop buffers k fuel es = .ok e ∧ e.key = k ∧ e.isEnd = false) ∧
       (k ∉ subKeys buffers h es →
        ∃ e, searchLoop buffers k fuel es = .ok e ∧ (e.isEnd = true ∨ e.key ≠ k))) := by
  intro h
  induction h using Nat.strong_induction_on with
  | _ h ih =>
    match h with
    | 0 =>
      intro es lo hi fuel hwf
      exact absurd hwf (by simp [wfNode])
    | h + 1 =>
      intro es lo hi fuel hwf hfuel hklo hkhi
      obtain ⟨f, rfl⟩ : ∃ f, fuel = f + 1 := ⟨fuel - 1, by omega⟩
      have hreg := wf_regular buffers h es lo hi hwf
      have hlast := wf_last buffers h es lo hi hwf
      have hsort := wf_sorted buffers h es lo hi hwf
      have hne := wf_ne buffers (h + 1) lo hi es hwf
      have hb := bsearch_correct buffers h lo hi es k hwf
      have hjlt : es.findIdx (leP k) < es.length := by
        apply List.findIdx_lt_length_of_exists
        refine ⟨es.getD (es.length - 1) dfltE, ?_, ?_⟩
        · rw [List.getD_eq_getElem es dfltE (by omega)]
          exact List.getElem_mem _
        · simp only [leP]
          rw [hlast]
          rfl
      have hPj : leP k (es.getD (es.findIdx (leP k)) dfltE) = true := by
        rw [List.getD_eq_getElem es dfltE hjlt]
        exact List.findIdx_getElem
      have hminP : ∀ i, i < es.findIdx (leP k) → leP k (es.getD i dfltE) = false := by
        intro i hij
        rw [List.getD_eq_getElem es dfltE (by omega)]
        exact List.not_of_lt_findIdx hij
      have hKeyLt : ∀ i, i < es.findIdx (leP k) → (es.getD i dfltE).key < k := by
        intro i hij
        have hfalse := hminP i hij
        have hiEnd : (es.getD i dfltE).isEnd = false := hreg i (by omega)
        simp only [leP, hiEnd, Bool.false_or, decide_eq_false_iff_not] at hfalse
        exact lt_of_not_le hfalse
      have hKeyGe : es.findIdx (leP k) + 1 < es.length →
          k ≤ (es.getD (es.findIdx (leP k)) dfltE).key := by
        intro hj1
        have hPj' := hPj
        simp only [leP, hreg _ hj1, Bool.false_or, decide_eq_true_eq] at hPj'
        exact hPj'
      have hChildMiss : ∀ i v child, i < es.length → i ≠ es.findIdx (leP k) →
          (es.getD i dfltE).vcn = some v → buffers[v]? = some child →
          k ∉ subKeys buffers h child := by
        intro i v child hilen hij hvcn hbuf hkmem
        obtain ⟨child', hbuf', hwfc⟩ := wf_children buffers h es lo hi hwf i v hilen hvcn
        rw [hbuf] at hbuf'
        injection hbuf' with hce
        subst hce
        have hbnd := subKeys_bounds buffers h child _ _ hwfc k hkmem
        rcases Nat.lt_or_ge i (es.findIdx (leP k)) with hij2 | hij2
        · have hi1 : ¬(i + 1 = es.length) := by omega
          have hlt := hbnd.2
          rw [if_neg hi1] at hlt
          simp only [ltHiB, decide_eq_true_eq] at hlt
          exact absurd (hKeyLt i hij2) (lt_asymm hlt)
        · have hij3 : es.findIdx (leP k) < i := by omega
          have hi0 : ¬(i = 0) := by omega
          have hgt := hbnd.1
          rw [if_neg hi0] at hgt
          simp only [ltLoB, decide_eq_true_eq] at hgt
          have hkle : k ≤ (es.getD (es.findIdx (leP k)) dfltE).key := hKeyGe (by omega)
          rcases Nat.eq_or_lt_of_le (show es.findIdx (leP k) ≤ i - 1 by omega) with hje | hjl
          · rw [← hje] at hgt
            exact absurd hgt (not_lt_of_le hkle)
          · have hkeyji := hsort (es.findIdx (leP k)) (i - 1) hjl (by omega)
            exact absurd (lt_of_le_of_lt hkle (lt_trans hkeyji hgt)) (lt_irrefl k)
      have hRegMissAbove : ∀ i, es.findIdx (leP k) < i → i + 1 < es.length →
          (es.getD i dfltE).key ≠ k := by
        intro i hij hi1 hc
        have h1 : k ≤ (es.getD (es.findIdx (leP k)) dfltE).key := hKeyGe (by omega)
        have h2 := hsort (es.findIdx (leP k)) i hij hi1
        rw [hc] at h2
        exact absurd (lt_of_le_of_lt h1 h2) (lt_irrefl k)
      by_cases hA : (es.getD (es.findIdx (leP k)) dfltE).isEnd = false ∧
          cmpM (es.getD (es.findIdx (leP k)) dfltE) k = .Equal
      · -- exact hit at the chosen entry: break with `ok`
        have hstep : searchLoop buffers k (f + 1) es = .ok (es.getD (es.findIdx (leP k)) dfltE) := by
          simp only [searchLoop]
          rw [hb]
          rw [if_pos (Or.inr hA)]
        have hkeyj : (es.getD (es.findIdx (leP k)) dfltE).key = k :=
          ((cmpM_eq_equal _ _).mp hA.2).symm
        have hj1 : es.findIdx (leP k) + 1 < es.length := by
          rcases Nat.lt_or_ge (es.findIdx (leP k) + 1) es.length with hv | hv
          · exact hv
          · have : es.findIdx (leP k) = es.length - 1 := by omega
            rw [this] at hA
            exact absurd hlast (by rw [hA.1]; simp)
        have hmem : k ∈ subKeys buffers (h + 1) es :=
          (subKeys_mem buffers h es lo hi hwf k).mpr
            (Or.inl ⟨es.findIdx (leP k), hj1, hkeyj⟩)
        constructor
        · intro _
          exact ⟨es.getD (es.findIdx (leP k)) dfltE, hstep, hkeyj, hA.1⟩
        · intro hnot
          exact absurd hmem hnot
      · cases hvcn : (es.getD (es.findIdx (leP k)) dfltE).vcn with
        | none =>
          -- chosen entry is not a node: break with `ok`, and k is not in this subtree
          have hstep : searchLoop buffers k (f + 1) es
              = .ok (es.getD (es.findIdx (leP k)) dfltE) := by
            simp only [searchLoop]
            rw [hb]
            rw [if_pos (Or.inl (by rw [hvcn]; rfl))]
          have hnomem : k ∉ subKeys buffers (h + 1) es := by
            intro hmem
            rcases (subKeys_mem buffers h es lo hi hwf k).mp hmem with
              ⟨i, hi1, hkey⟩ | ⟨i, v', child', hilen, hvcn', hbuf', hm'⟩
            · rcases Nat.lt_trichotomy i (es.findIdx (leP k)) with hij | hij | hij
              · exact absurd hkey (ne_of_lt (hKeyLt i hij))
              · subst hij
                exact hA ⟨hreg _ hi1, (cmpM_eq_equal _ _).mpr hkey.symm⟩
              · exact absurd hkey (hRegMissAbove i hij hi1)
            · by_cases hij : i = es.findIdx (leP k)
              · subst hij
                rw [hvcn] at hvcn'
                exact absurd hvcn' (by simp)
              · exact hChildMiss i v' child' hilen hij hvcn' hbuf' hm'
          constructor
          · intro hmem
            exact absurd hmem hnomem
          · intro _
            refine ⟨es.getD (es.findIdx (leP k)) dfltE, hstep, ?_⟩
            by_cases hend : (es.getD (es.findIdx (leP k)) dfltE).isEnd = true
            · exact Or.inl hend
            · right
              intro hc
              exact hA ⟨by simpa using hend, (cmpM_eq_equal _ _).mpr hc.symm⟩
        | some v =>
          -- descend into the child buffer
          obtain ⟨child, hbuf, hwfc⟩ :=
            wf_children buffers h es lo hi hwf (es.findIdx (leP k)) v hjlt hvcn
          have hstep : searchLoop buffers k (f + 1) es = searchLoop buffers k f child := by
            simp only [searchLoop]
            rw [hb]
            rw [if_neg (by
              rintro (hc1 | hc2)
              · rw [hvcn] at hc1
                simp at hc1
              · exact hA hc2)]
            rw [hvcn]
            dsimp only
            rw [hbuf]
          have hlo' : ltLoB (if es.findIdx (leP k) = 0 then lo
              else some ((es.getD (es.findIdx (leP k) - 1) dfltE).key)) k = true := by
            by_cases hj0 : es.findIdx (leP k) = 0
            · rw [if_pos hj0]; exact hklo
            · rw [if_neg hj0]
              simp only [ltLoB, decide_eq_true_eq]
              exact hKeyLt _ (by omega)
          have hhi' : ltHiB k (if es.findIdx (leP k) + 1 = es.length then hi
              else some ((es.getD (es.findIdx (leP k)) dfltE).key)) = true := by
            by_cases hj1 : es.findIdx (leP k) + 1 = es.length
            · rw [if_pos hj1]; exact hkhi
            · rw [if_neg hj1]
              simp only [ltHiB, decide_eq_true_eq]
              have hle := hKeyGe (by omega)
              rcases lt_or_eq_of_le hle with hlt | heq
              · exact hlt
              · exact absurd (hA ⟨hreg _ (by omega), (cmpM_eq_equal _ _).mpr heq⟩) id
          have hIH := ih h (by omega) child _ _ f hwfc (by omega) hlo' hhi'
          have hmemiff : k ∈ subKeys buffers (h + 1) es ↔ k ∈ subKeys buffers h child := by
            constructor
            · intro hmem
              rcases (subKeys_mem buffers h es lo hi hwf k).mp hmem with
                ⟨i, hi1, hkey⟩ | ⟨i, v', child', hilen, hvcn', hbuf', hm'⟩
              · rcases Nat.lt_trichotomy i (es.findIdx (leP k)) with hij | hij | hij
                · exact absurd hkey (ne_of_lt (hKeyLt i hij))
                · subst hij
                  exact absurd (hA ⟨hreg _ hi1, (cmpM_eq_equal _ _).mpr hkey.symm⟩) id
                · exact absurd hkey (hRegMissAbove i hij hi1)
              · by_cases hij : i = es.findIdx (leP k)
                · subst hij
                  rw [hvcn] at hvcn'
                  injection hvcn' with hv'
                  subst hv'
                  rw [hbuf] at hbuf'
                  injection hbuf' with hc'
                  subst hc'
                  exact hm'
                · exact absurd hm' (hChildMiss i v' child' hilen hij hvcn' hbuf')
            · intro hmem
              exact (subKeys_mem buffers h es lo hi hwf k).mpr
                (Or.inr ⟨es.findIdx (leP k), v, child, hjlt, hvcn, hbuf, hmem⟩)
          constructor
          · intro hmem
            obtain ⟨e, he1, he2, he3⟩ := hIH.1 (hmemiff.mp hmem)
            exact ⟨e, by rw [hstep]; exact he1, he2, he3⟩
          · intro hnot
            obtain ⟨e, he1, he2⟩ := hIH.2 (fun hc => hnot (hmemiff.mpr hc))
            exact ⟨e, by rw [hstep]; exact he1, he2⟩

/-- The regular (non-END) entries' keys of a node, in order: what
`Index.entries()` yields from one entry list. -/
def regKeys {α : Type} (es : List (Entry α)) : List α :=
  (es.takeWhile (fun e => !e.isEnd)).map (fun e => e.key)

theorem subKeys_regKeys {α : Type} [LinearOrder α] [Inhabited α]
    (buffers : List (List (Entry α))) :
    ∀ (h : Nat) (es : List (Entry α)) (lo hi : Option α),
      wfNode buffers h lo hi es = true →
      ∀ x : α, (x ∈ subKeys buffers h es ↔
        x ∈ regKeys es ∨ ∃ v, v ∈ usedVcns buffers h es ∧
          ∃ c, buffers[v]? = some c ∧ x ∈ regKeys c) := by
  intro h
  induction h using Nat.strong_induction_on with
  | _ h ih =>
    match h with
    | 0 => intro es lo hi hwf; exact absurd hwf (by simp [wfNode])
    | h + 1 =>
      have IH : ∀ (child : List (Entry α)) (lo hi : Option α),
          wfNode buffers h lo hi child = true →
          ∀ x : α, (x ∈ subKeys buffers h child ↔
            x ∈ regKeys child ∨ ∃ v, v ∈ usedVcns buffers h child ∧
              ∃ c, buffers[v]? = some c ∧ x ∈ regKeys c) :=
        fun child lo hi hwf x => ih h (by omega) child lo hi hwf x
      intro es
      induction es with
      | nil => intro lo hi hwf; exact absurd hwf (by simp [wfNode])
      | cons e rest ihes =>
        intro lo hi hwf x
        have hsub : subKeys buffers (h + 1) (e :: rest)
            = (match e.vcn with
               | none => []
               | some v =>
                 match buffers[v]? with
                 | none => []
                 | some child => subKeys buffers h child) ++
              (if e.isEnd then [] else e.key :: subKeys buffers (h + 1) rest) := by
          simp only [subKeys]
        have huse : usedVcns buffers (h + 1) (e :: rest)
            = (match e.vcn with
               | none => []
               | some v =>
                 v :: (match buffers[v]? with
                   | none => []
                   | some child => usedVcns buffers h child)) ++
              (if e.isEnd then [] else usedVcns buffers (h + 1) rest) := by
          simp only [usedVcns]
        rcases wfNode_cons buffers h lo hi e rest hwf with
          ⟨he, rfl, hch⟩ | ⟨he, hlo, hhi, hch, hrest⟩
        · rw [hsub, huse, if_pos he, if_pos he, List.append_nil, List.append_nil]
          have hrk : regKeys (e :: ([] : List (Entry α))) = [] := by
            simp [regKeys, he]
          rw [hrk]
          cases hv : e.vcn with
          | none =>
            simp
          | some v =>
            obtain ⟨child, hbuf, hwfc⟩ := hch v hv
            dsimp only
            rw [hbuf]
            dsimp only
            rw [IH child lo hi hwfc x]
            have hvc : (∃ c, buffers[v]? = some c ∧ x ∈ regKeys c) ↔ x ∈ regKeys child := by
              constructor
              · rintro ⟨c, hbuf', hc⟩
                rw [hbuf] at hbuf'
                injection hbuf' with h1
                rwa [h1]
              · intro hc
                exact ⟨child, hbuf, hc⟩
            simp only [List.not_mem_nil, false_or, List.mem_cons, or_and_right,
              exists_or, exists_eq_left]
            rw [hvc]
        · have hne' : ¬(e.isEnd = true) := by simp [he]
          rw [hsub, huse, if_neg hne', if_neg hne']
          have hrk : regKeys (e :: rest) = e.key :: regKeys rest := by
            simp [regKeys, he]
          rw [hrk]
          have hrest' := ihes (some e.key) hi hrest x
          cases hv : e.vcn with
          | none =>
            dsimp only
            simp only [List.nil_append, List.mem_cons]
            rw [hrest']
            tauto
          | some v =>
            obtain ⟨child, hbuf, hwfc⟩ := hch v hv
            dsimp only
            rw [hbuf]
            dsimp only
            simp only [List.cons_append, List.mem_append, List.mem_cons]
            rw [IH child lo (some e.key) hwfc x]
            rw [hrest']
            have hvc : (∃ c, buffers[v]? = some c ∧ x ∈ regKeys c) ↔ x ∈ regKeys child := by
              constructor
              · rintro ⟨c, hbuf', hc⟩
                rw [hbuf] at hbuf'
                injection hbuf' with h1
                rwa [h1]
              · intro hc
                exact ⟨child, hbuf, hc⟩
            simp only [or_and_right, exists_or, exists_eq_left]
            rw [hvc]
            constructor
            · rintro ((hA | hB) | hK | hR | hU)
              · exact Or.inr (Or.inl hA)
              · exact Or.inr (Or.inr (Or.inl hB))
              · exact Or.inl (Or.inl hK)
              · exact Or.inl (Or.inr hR)
              · exact Or.inr (Or.inr (Or.inr hU))
            · rintro ((hK | hR) | hA | hB | hU)
              · exact Or.inr (Or.inl hK)
              · exact Or.inr (Or.inr (Or.inl hR))
              · exact Or.inl (Or.inl hA)
              · exact Or.inl (Or.inr hB)
              · exact Or.inr (Or.inr (Or.inr hU))

theorem index_keys_mem {α : Type} [LinearOrder α] [Inhabited α]
    (idx : PyIndex α) (h : Nat) (hwf : wfIndex idx h) (x : α) :
    x ∈ subKeys idx.buffers h idx.root ↔ x ∈ (entriesAll idx).map (fun e => e.key) := by
  obtain ⟨hroot, hperm⟩ := hwf
  rw [subKeys_regKeys idx.buffers h idx.root none none hroot x]
  have hent : (entriesAll idx).map (fun e => e.key)
      = regKeys idx.root ++ (idx.buffers.map regKeys).flatten := by
    simp only [entriesAll, List.map_append, List.map_flatten, List.map_map]
    rfl
  rw [hent, List.mem_append]
  have hv : (∃ v, v ∈ usedVcns idx.buffers h idx.root ∧
      ∃ c, idx.buffers[v]? = some c ∧ x ∈ regKeys c) ↔
      x ∈ (idx.buffers.map regKeys).flatten := by
    constructor
    · rintro ⟨v, _, c, hbuf, hc⟩
      rw [List.mem_flatten]
      refine ⟨regKeys c, ?_, hc⟩
      rw [List.mem_map]
      exact ⟨c, List.getElem?_mem hbuf, rfl⟩
    · intro hx
      rw [List.mem_flatten] at hx
      obtain ⟨l, hl, hxl⟩ := hx
      rw [List.mem_map] at hl
      obtain ⟨c, hcmem, rfl⟩ := hl
      obtain ⟨v, hvlt, hveq⟩ := List.mem_iff_getElem.mp hcmem
      refine ⟨v, ?_, c, ?_, hxl⟩
      · rw [hperm.mem_iff, List.mem_range]
        exact hvlt
      · rw [List.getElem?_eq_getElem hvlt, hveq]
  rw [hv]

/-- C2: for a well-formed index (the B-tree shape the on-disk format
guarantees and `Index.search` relies on), exact search returns the entry
whose key equals the query iff such an entry exists among `entries()`,
and fails with `KeyError` (`notFound`) otherwise; the per-node binary
search returns the first entry whose key is ≥ the query with END entries
comparing greater than any key; and when the chosen entry is an interior
node and not a non-END exact hit, the search descends to its child VCN's
buffer. -/
theorem claim_C2_index_search {α : Type} [LinearOrder α] [Inhabited α]
    (idx : PyIndex α) (h fuel : Nat) (hwf : wfIndex idx h) (hfuel : h ≤ fuel) (k : α) :
    ((k ∈ (entriesAll idx).map (fun e => e.key)) →
      ∃ e, searchIdx idx k true fuel = .ok e ∧ e.key = k ∧ e.isEnd = false) ∧
    ((k ∉ (entriesAll idx).map (fun e => e.key)) →
      searchIdx idx k true fuel = .error .notFound) ∧
    (∀ (h' : Nat) (lo hi : Option α) (es : List (Entry α)),
      wfNode idx.buffers h' lo hi es = true →
      bsearch es k = es.getD (es.findIdx (leP k)) dfltE) ∧
    (∀ (f : Nat) (es : List (Entry α)) (v : Nat) (child : List (Entry α)),
      (bsearch es k).vcn = some v →
      ¬((bsearch es k).isEnd = false ∧ cmpM (bsearch es k) k = .Equal) →
      idx.buffers[v]? = some child →
      searchLoop idx.buffers k (f + 1) es = searchLoop idx.buffers k f child) := by
  obtain ⟨hroot, hperm⟩ := hwf
  have hsl := searchLoop_correct idx.buffers k h idx.root none none fuel hroot hfuel rfl rfl
  refine ⟨?_, ?_, ?_, ?_⟩
  · intro hk
    obtain ⟨e, he1, he2, he3⟩ :=
      hsl.1 ((index_keys_mem idx h ⟨hroot, hperm⟩ k).mpr hk)
    refine ⟨e, ?_, he2, he3⟩
    simp only [searchIdx, he1]
    rw [if_neg (by
      rintro ⟨-, hc | hc⟩
      · rw [he3] at hc
        exact absurd hc (by simp)
      · exact hc ((cmpM_eq_equal e k).mpr he2.symm))]
  · intro hk
    obtain ⟨e, he1, he2⟩ :=
      hsl.2 (fun hc => hk ((index_keys_mem idx h ⟨hroot, hperm⟩ k).mp hc))
    simp only [searchIdx, he1]
    rw [if_pos (by
      refine ⟨by trivial, ?_⟩
      rcases he2 with hend | hne
      · exact Or.inl hend
      · exact Or.inr (fun hc => hne (((cmpM_eq_equal e k).mp hc).symm)))]
  · intro h' lo hi es hwfn
    cases h' with
    | zero => exact absurd hwfn (by simp [wfNode])
    | succ h'' => exact bsearch_correct idx.buffers h'' lo hi es k hwfn
  · intro f es v child hv hnA hbuf
    simp only [searchLoop]
    rw [if_neg (by
      rintro (hc1 | hc2)
      · rw [hv] at hc1
        simp at hc1
      · exact hnA hc2)]
    rw [hv]
    dsimp only
    rw [hbuf]

/-- A small concrete two-level index: root keys 10 (child buffer 0) and an
END entry pointing at buffer 1; buffer 0 holds 3, 7 and buffer 1 holds 15. -/
def wIdx : PyIndex Nat :=
  { root := [⟨10, some 0, false⟩, ⟨0, some 1, true⟩],
    buffers := [[⟨3, none, false⟩, ⟨7, none, false⟩, ⟨0, none, true⟩],
                [⟨15, none, false⟩, ⟨0, none, true⟩]] }

theorem claim_C2_witness :
    (∃ e, searchIdx wIdx 7 true 2 = .ok e ∧ e.key = 7 ∧ e.isEnd = false) ∧
    searchIdx wIdx 8 true 2 = .error .notFound := by
  have hwf : wfIndex wIdx 2 :=
    ⟨by simp [wIdx, wfNode, ltLoB, ltHiB], by simp [wIdx, usedVcns]; decide⟩
  exact ⟨(claim_C2_index_search wIdx 2 2 hwf (by decide) 7).1 (by decide),
    (claim_C2_index_search wIdx 2 2 hwf (by decide) 8).2.1 (by decide)⟩

end NTFS
